import Mathlib

/-!
# Verification of the lab-report abnormality scanner (`app.py`)

A shallow embedding of the extraction-and-classification core of the
repository's single source file `app.py`:

* the canonical test dictionary `TEST_MAPPING`,
* the reference-range parser `extract_range` (regex cascade),
* the numeric-value parser `extract_value`,
* the line-walking block parser `parse_text_block`,
* the narrative/biopsy rejection gate of `analyze_file`,
* the abnormality classification loop of `analyze_route`.

Modelling conventions:

* Python strings are `List Char` (abbreviated `Str`); all text in play is
  ASCII apart from the three mojibake characters that occur literally in
  the dash-range regex of the source.
* Python `float` values arising here are parsed from short decimal
  numerals and compared; they are modelled exactly as `Rat`.
* The regular expressions of the source are hand-compiled to scanners
  with Python `re.search` semantics (leftmost start position, greedy
  with backtracking where the pattern needs it).
* The third-party fuzzy matcher `thefuzz.process.extractOne` is outside
  the repository; the block parser is parameterised over it
  (`fz : Str → Option Str`, returning the matched alias if its score
  reaches the cutoff).  Every theorem below either holds for all such
  functions or concerns inputs whose trace never consults it.
-/

/-- Python strings, modelled as lists of characters. -/
abbrev Str := List Char

/-- Python's `\s` / `str.strip()` whitespace (ASCII). -/
def pySpace (c : Char) : Bool :=
  c = ' ' ∨ c = '\t' ∨ c = '\n' ∨ c = '\r' ∨ c = '\x0b' ∨ c = '\x0c'

/-- Python regex `\w` word characters (ASCII part). -/
def wordChar (c : Char) : Bool :=
  c.isAlpha ∨ c.isDigit ∨ c = '_'

/-- Python `str.lower()` on the ASCII range. -/
def lowerC (c : Char) : Char :=
  if 'A' ≤ c ∧ c ≤ 'Z' then Char.ofNat (c.toNat + 32) else c

/-- `str.lower()` over a whole string. -/
def lowerS (s : Str) : Str := s.map lowerC

/-- Boolean "`pat` begins the string `s`" (exact characters). -/
def startsWith : Str → Str → Bool
  | [], _ => true
  | _ :: _, [] => false
  | a :: as, b :: bs => decide (a = b) && startsWith as bs

/-- Boolean "`pat` begins the string `s`" up to ASCII case. -/
def ciStarts : Str → Str → Bool
  | [], _ => true
  | _ :: _, [] => false
  | a :: as, b :: bs => decide (lowerC a = lowerC b) && ciStarts as bs

/-- Python `pat in s`: `pat` occurs as a contiguous substring of `s`. -/
def subOccurs (pat : Str) : Str → Bool
  | [] => startsWith pat []
  | s@(_ :: rest) => startsWith pat s || subOccurs pat rest

/-- Python `s.strip()` from the left. -/
def trimLeft (s : Str) : Str := s.dropWhile pySpace

/-- Python `s.strip()` from the right. -/
def trimRight (s : Str) : Str := (s.reverse.dropWhile pySpace).reverse

/-- Python `s.strip()`. -/
def trim (s : Str) : Str := trimRight (trimLeft s)

/-- One collapsing pass of `re.sub(r'\s+', ' ', text)`: every maximal
whitespace run becomes a single `' '`. -/
def collapseWS : Str → Str
  | [] => []
  | [c] => if pySpace c then [' '] else [c]
  | c₁ :: c₂ :: r =>
    if pySpace c₁ ∧ pySpace c₂ then collapseWS (c₂ :: r)
    else (if pySpace c₁ then ' ' else c₁) :: collapseWS (c₂ :: r)

/-- `re.sub(r'\s+', ' ', text).strip()` — the normalisation applied by
`extract_range` before any pattern runs. -/
def normalizeWS (s : Str) : Str := trim (collapseWS s)

/-- Python `full_text.split("\n")`. -/
def splitNl : Str → List Str
  | [] => [[]]
  | '\n' :: r => [] :: splitNl r
  | c :: r =>
    match splitNl r with
    | h :: t => (c :: h) :: t
    | [] => [[c]]

/-- Python `s.replace(pat, "")` for a non-empty `pat`: delete every
(non-overlapping, left-to-right) occurrence.  The `Nat` argument is the
number of characters of a recognised occurrence still to be dropped;
keeping it explicit makes the recursion structural, so it reduces in the
kernel. -/
def remAux (pat : Str) : Nat → Str → Str
  | n + 1, [] => []
  | n + 1, _ :: rest => remAux pat n rest
  | 0, [] => []
  | 0, c :: rest =>
    if startsWith pat (c :: rest) then remAux pat (pat.length - 1) rest
    else c :: remAux pat 0 rest

/-- Python `s.replace(pat, "")` for a non-empty `pat`. -/
def removeAll (pat s : Str) : Str := remAux pat 0 s

/-- Python `s.replace(pat, "")` (for an empty `pat` the result is `s`,
matching CPython's behaviour of inserting the empty replacement). -/
def pyRemove (s pat : Str) : Str :=
  if pat = [] then s else removeAll pat s

/-- The regex fragment `\d+(?:\.\d+)?` matched greedily at the start of
`s`; returns the matched numeral and the rest of the string.  (Inside the
patterns of `app.py`, no shorter match of this fragment can ever extend
to a full match — the following component classes contain neither digits
nor `'.'` — so the greedy parse is the faithful one.) -/
def matchNumAt (s : Str) : Option (Str × Str) :=
  let d := s.takeWhile (·.isDigit)
  let r := s.dropWhile (·.isDigit)
  if d = [] then none
  else
    match r with
    | '.' :: r2 =>
      let f := r2.takeWhile (·.isDigit)
      if f = [] then some (d, r)
      else some (d ++ '.' :: f, r2.dropWhile (·.isDigit))
    | _ => some (d, r)

/-- Digits of a numeral folded into a natural number. -/
def natOfDigits (s : Str) : Nat :=
  s.foldl (fun acc c => 10 * acc + (c.toNat - '0'.toNat)) 0

/-- Powers of ten, kept as a plain recursion so kernel reduction works. -/
def pow10 : Nat → Nat
  | 0 => 1
  | n + 1 => 10 * pow10 n

/-- Python `float(tok)` for a token matched by `\d+(?:\.\d+)?`,
modelled exactly as a rational. -/
def ratOfNum (s : Str) : Rat :=
  let d := s.takeWhile (· ≠ '.')
  let r := s.dropWhile (· ≠ '.')
  match r with
  | '.' :: f => (natOfDigits d : Rat) + (natOfDigits f : Rat) / (pow10 f.length : Rat)
  | _ => (natOfDigits d : Rat)

/-- `tok` is exactly one token of `\d+(?:\.\d+)?`. -/
def isNumeral (s : Str) : Bool :=
  let d := s.takeWhile (·.isDigit)
  let r := s.dropWhile (·.isDigit)
  !d.isEmpty &&
    match r with
    | [] => true
    | '.' :: f => !f.isEmpty && f.all (·.isDigit)
    | _ => false

/-- Python `float(n)` under the `try`/`except` of `extract_value`:
`some` on the numeral tokens produced by `re.findall`, `none` otherwise. -/
def floatOf? (s : Str) : Option Rat :=
  if isNumeral s then some (ratOfNum s) else none

/-- Character class `[%/a-zA-Z]` — the "unit fragment" characters allowed
between the two numbers of a dash range. -/
def unitClass (c : Char) : Bool :=
  c = '%' ∨ c = '/' ∨ c.isAlpha

/-- Character class `[-â€“to]` of the dash-range pattern, byte-for-byte as
it appears in `app.py` (the en-dash of the original pattern survives as
the three mojibake characters `â`, `€`, `“`). -/
def sepClass (c : Char) : Bool :=
  c = '-' ∨ c = 'â' ∨ c = '€' ∨ c = '“' ∨ c = 't' ∨ c = 'o'

/-- After the optional unit fragment: `\s*` then one `[-â€“to]` character
then `\s*` then the second number.  Returns (second group, rest). -/
def afterUnit (s : Str) : Option (Str × Str) :=
  match s.dropWhile pySpace with
  | [] => none
  | c :: s2 =>
    if sepClass c then matchNumAt (s2.dropWhile pySpace)
    else none

/-- Greedy backtracking over `(?:[%/a-zA-Z]{0,5}\s*)?`: try consuming
`k, k-1, …, 0` unit characters (the caller passes
`k = min 5 (length of the unit-character run)`), longest first. -/
def tryUnits : Nat → Str → Option (Str × Str)
  | 0, s => afterUnit s
  | k + 1, s =>
    match afterUnit (s.drop (k + 1)) with
    | some res => some res
    | none => tryUnits k s

/-- Pattern A, `(\d+(?:\.\d+)?)\s*(?:[%/a-zA-Z]{0,5}\s*)?[-â€“to]\s*(\d+(?:\.\d+)?)`,
anchored at the start of `s`.  Returns (group 1, group 2, length of the
whole match). -/
def matchAAt (s : Str) : Option (Str × Str × Nat) :=
  match matchNumAt s with
  | none => none
  | some (g1, r1) =>
    let r2 := r1.dropWhile pySpace
    match tryUnits (min 5 ((r2.takeWhile unitClass).length)) r2 with
    | none => none
    | some (g2, rest) => some (g1, g2, s.length - rest.length)

/-- `re.search` for pattern A: leftmost start position wins.  Returns
(group 1, group 2, group 0). -/
def searchA : Str → Option (Str × Str × Str)
  | [] => none
  | c :: rest =>
    match matchAAt (c :: rest) with
    | some (g1, g2, k) => some (g1, g2, (c :: rest).take k)
    | none => searchA rest

/-- `(?:<|less than)` (with `re.IGNORECASE`) anchored at the start of
`s`: returns the rest of the string after the alternative. -/
def ltHeadAt (s : Str) : Option Str :=
  match s with
  | '<' :: r => some r
  | _ =>
    if ciStarts ('l' :: 'e' :: 's' :: 's' :: ' ' :: 't' :: 'h' :: 'a' :: 'n' :: []) s then
      some (s.drop 9)
    else none

/-- `(?:>|more than)` (with `re.IGNORECASE`) anchored at the start of `s`. -/
def gtHeadAt (s : Str) : Option Str :=
  match s with
  | '>' :: r => some r
  | _ =>
    if ciStarts ('m' :: 'o' :: 'r' :: 'e' :: ' ' :: 't' :: 'h' :: 'a' :: 'n' :: []) s then
      some (s.drop 9)
    else none

/-- Pattern B/C body: a head alternative then `\s*(\d+(?:\.\d+)?)`,
anchored at the start of `s`.  Returns (group 1, length of the match). -/
def matchBoundAt (head : Str → Option Str) (s : Str) : Option (Str × Nat) :=
  match head s with
  | none => none
  | some r =>
    match matchNumAt (r.dropWhile pySpace) with
    | none => none
    | some (g, rest) => some (g, s.length - rest.length)

/-- `re.search` for patterns B and C.  Returns (group 1, group 0). -/
def searchBound (head : Str → Option Str) : Str → Option (Str × Str)
  | [] => none
  | c :: rest =>
    match matchBoundAt head (c :: rest) with
    | some (g, k) => some (g, (c :: rest).take k)
    | none => searchBound head rest

/-- After the opening bracket of pattern D/E: `\s*(?:Word|W)\s*[\)\]]`,
trying the long alternative first, then the single letter (regex
alternation backtracking). -/
def markerTail (word : Str) (letter : Char) (r : Str) : Bool :=
  let r1 := r.dropWhile pySpace
  (ciStarts word r1 ∧ closeAfter (r1.drop word.length)) ∨
    (ciStarts [letter] r1 ∧ closeAfter (r1.drop 1))
where
  closeAfter (s : Str) : Bool :=
    match s.dropWhile pySpace with
    | c :: _ => c = ')' ∨ c = ']'
    | [] => false

/-- `re.search(r"[\(\[]\s*(?:Low|L)\s*[\)\]]", …, re.IGNORECASE)` and its
`High` twin: does the pattern occur anywhere in the string? -/
def searchMarker (word : Str) (letter : Char) : Str → Bool
  | [] => false
  | c :: rest =>
    ((c = '(' ∨ c = '[') ∧ markerTail word letter rest) ∨
      searchMarker word letter rest

/-- `re.search(r'\b1100\d{2}\b', text)`: the Delhi-zip guard.  `prev` is
the character just before the current position (`none` at the start). -/
def zipFrom (prev : Option Char) : Str → Bool
  | '1' :: '1' :: '0' :: '0' :: d1 :: d2 :: rest =>
    (prev.all (fun c => !wordChar c) && d1.isDigit && d2.isDigit &&
      (match rest with | [] => true | c :: _ => !wordChar c)) ||
      zipFrom (some '1') ('1' :: '0' :: '0' :: d1 :: d2 :: rest)
  | c :: rest => zipFrom (some c) rest
  | [] => false

/-- The zip-code guard over a whole string. -/
def zipSearch (s : Str) : Bool := zipFrom none s

/-- `extract_range` (app.py lines 61–107): normalise whitespace, zip-code
guard, then the five-pattern cascade.  Returns `(min, max, matchedSpan)`
or `none` (the Python triple `None, None, None`; every non-`None` return
of the source carries all three components). -/
def extract_range (text : Str) : Option (Rat × Rat × Str) :=
  if text = [] then none
  else
    let t := normalizeWS text
    if zipSearch t then none
    else
      match searchA t with
      | some (g1, g2, g0) =>
        let min_v := ratOfNum g1
        let max_v := ratOfNum g2
        if 50000 < max_v then none
        else some (min_v, max_v, g0)
      | none =>
        match searchBound ltHeadAt t with
        | some (g, g0) => some (0, ratOfNum g, g0)
        | none =>
          match searchBound gtHeadAt t with
          | some (g, g0) => some (ratOfNum g, 999999, g0)
          | none =>
            if searchMarker ('L' :: 'o' :: 'w' :: []) 'L' t then
              some (999999, 999999, '(' :: 'L' :: 'o' :: 'w' :: ')' :: [])
            else if searchMarker ('H' :: 'i' :: 'g' :: 'h' :: []) 'H' t then
              some (-999999, -999999, '(' :: 'H' :: 'i' :: 'g' :: 'h' :: ')' :: [])
            else none

/-- The scanning states of `re.findall(r"(\d+(?:\.\d+)?)", clean)`:
outside any token / inside the integer digits / just behind a `'.'` that
may start a fraction / inside the fraction digits.  `acc` holds the
token collected so far in reverse. -/
inductive FindSt
  | out : FindSt
  | intPart (acc : Str) : FindSt
  | dotPend (acc : Str) : FindSt
  | fracPart (acc : Str) : FindSt

/-- One structural pass implementing `re.findall(r"(\d+(?:\.\d+)?)", s)`:
each new match starts at the leftmost possible position, the token is
greedy, and scanning resumes right after the matched token. -/
def findAux : FindSt → Str → List Str
  | .out, [] => []
  | .out, c :: rest =>
    if c.isDigit then findAux (.intPart [c]) rest else findAux .out rest
  | .intPart acc, [] => [acc.reverse]
  | .intPart acc, c :: rest =>
    if c.isDigit then findAux (.intPart (c :: acc)) rest
    else if c = '.' then findAux (.dotPend acc) rest
    else acc.reverse :: findAux .out rest
  | .dotPend acc, [] => [acc.reverse]
  | .dotPend acc, c :: rest =>
    if c.isDigit then findAux (.fracPart (c :: '.' :: acc)) rest
    else acc.reverse :: findAux .out rest
  | .fracPart acc, [] => [acc.reverse]
  | .fracPart acc, c :: rest =>
    if c.isDigit then findAux (.fracPart (c :: acc)) rest
    else acc.reverse :: findAux .out rest

/-- `re.findall(r"(\d+(?:\.\d+)?)", clean)`: all numeral tokens, left to
right, non-overlapping.  (In the `dotPend` state the pending `'.'` is
not part of the token — as in Python, `"12."` yields `"12"` and the dot
itself can never start a new token.) -/
def findallNum (s : Str) : List Str := findAux .out s

/-- The keep-condition of the `extract_value` loop, verbatim from the
source: `if f < 2000 or (f > 2100 and f < 10000): valid_nums.append(f)`. -/
def keepTok (f : Rat) : Bool := f < 2000 ∨ (2100 < f ∧ f < 10000)

/-- The filtering loop of `extract_value`: parse each token (`try`/`except`
around `float`), keep it when `f < 2000 or (f > 2100 and f < 10000)`. -/
def collectValid : List Str → List Rat
  | [] => []
  | n :: rest =>
    match floatOf? n with
    | some f => if keepTok f then f :: collectValid rest else collectValid rest
    | none => collectValid rest

/-- `extract_value` (app.py lines 109–131): remove the matched range span,
strip commas, find all numeral tokens, filter years/IDs, return the first
survivor. -/
def extract_value (text_source : Str) (range_str : Option Str) : Option Rat :=
  if text_source = [] then none
  else
    let clean :=
      match range_str with
      | some r => pyRemove text_source r
      | none => text_source
    let clean := clean.filter (· ≠ ',')
    (collectValid (findallNum clean)).head?

/-- Shorthand for string literals as `Str`. -/
def sl (s : String) : Str := s.toList

/-- `TEST_MAPPING` (app.py lines 24–54): canonical test name → aliases,
in source order. -/
def TEST_MAPPING : List (Str × List Str) :=
  [ (sl ("TSH"), [sl ("Thyroid Stimulating Hormone"), sl ("TSH"), sl ("TSH Ultra"), sl ("T.S.H")]),
    (sl ("Total T3"), [sl ("Total T3"), sl ("Triiodothyronine"), sl ("T3")]),
    (sl ("Total T4"), [sl ("Total T4"), sl ("Thyroxine"), sl ("T4")]),
    (sl ("Vitamin D"), [sl ("Vitamin D"), sl ("25-OH Vitamin D"), sl ("Total 25 OH Vitamin D")]),
    (sl ("Vitamin B12"), [sl ("Vitamin B12"), sl ("Cyanocobalamin"), sl ("Vit B12")]),
    (sl ("HbA1c"), [sl ("HbA1c"), sl ("Glycosylated Hemoglobin")]),
    (sl ("Glucose Fasting"), [sl ("Fasting Blood Sugar"), sl ("FBS"), sl ("Glucose Fasting")]),
    (sl ("Glucose PP"), [sl ("Post Prandial"), sl ("PPBS"), sl ("Glucose PP")]),
    (sl ("Hemoglobin"), [sl ("Hemoglobin"), sl ("Hb"), sl ("Haemoglobin")]),
    (sl ("PCV"), [sl ("PCV"), sl ("Packed Cell Volume"), sl ("Hematocrit"), sl ("HCT")]),
    (sl ("RBC Count"), [sl ("RBC Count"), sl ("Red Blood Cell Count"), sl ("Total RBC")]),
    (sl ("MCV"), [sl ("MCV")]),
    (sl ("MCH"), [sl ("MCH")]),
    (sl ("MCHC"), [sl ("MCHC")]),
    (sl ("RDW"), [sl ("RDW"), sl ("R.D.W")]),
    (sl ("TLC"), [sl ("TLC"), sl ("WBC"), sl ("Total Leucocyte Count"), sl ("White Blood Cell")]),
    (sl ("Platelet Count"), [sl ("Platelet Count"), sl ("PLT"), sl ("Platelets")]),
    (sl ("Neutrophils"), [sl ("Neutrophils"), sl ("Polymorphs")]),
    (sl ("Lymphocytes"), [sl ("Lymphocytes")]),
    (sl ("Monocytes"), [sl ("Monocytes")]),
    (sl ("Eosinophils"), [sl ("Eosinophils")]),
    (sl ("Basophils"), [sl ("Basophils")]),
    (sl ("Urea"), [sl ("Urea"), sl ("Blood Urea")]),
    (sl ("Creatinine"), [sl ("Creatinine"), sl ("Serum Creatinine")]),
    (sl ("Uric Acid"), [sl ("Uric Acid")]),
    (sl ("Cholesterol"), [sl ("Cholesterol"), sl ("Total Cholesterol")]),
    (sl ("Triglycerides"), [sl ("Triglycerides")]),
    (sl ("HDL"), [sl ("HDL Cholesterol"), sl ("H.D.L")]),
    (sl ("LDL"), [sl ("LDL Cholesterol"), sl ("L.D.L")]) ]

/-- `ALL_KEYWORDS`: the flattened alias list (fuzzy-search domain). -/
def ALL_KEYWORDS : List Str := (TEST_MAPPING.map Prod.snd).flatten

/-- `next(k for k, v in TEST_MAPPING.items() if keyword in v)` — reverse
lookup of an alias to its canonical name; `none` models the caught
`StopIteration` when no alias list contains the keyword. -/
def lookupCanonical (kw : Str) : Option Str :=
  (TEST_MAPPING.find? (fun p => p.2.contains kw)).map Prod.fst

/-- `\b` at the position before/after a word-character token: the
neighbouring character (if any) must not be a word character.  (All the
tokens this is applied to consist of word characters, for which this is
exactly Python's `\b`.) -/
def nbOk (prev : Option Char) : Bool := prev.all (fun c => !wordChar c)

/-- Boundary after the token: end of string or a non-word character. -/
def nbAfter (s : Str) : Bool :=
  match s with
  | [] => true
  | c :: _ => !wordChar c

/-- Scan of `re.search(r'\b TOK \b', line, re.IGNORECASE)` carrying the
previous character. -/
def wwAux (tok : Str) (prev : Option Char) : Str → Bool
  | [] => false
  | c :: rest =>
    (nbOk prev && ciStarts tok (c :: rest) && nbAfter ((c :: rest).drop tok.length)) ||
      wwAux tok (some c) rest

/-- `re.search(r'\b' + re.escape(safe) + r'\b', line, re.IGNORECASE)`. -/
def wholeWordCI (tok line : Str) : Bool := wwAux tok none line

/-- The curated safe-token list of the exact-match pass
(app.py line 158), in source order. -/
def SAFE_TOKENS : List Str :=
  [sl ("Hb"), sl ("PCV"), sl ("TLC"), sl ("RBC"), sl ("MCV"),
   sl ("MCH"), sl ("MCHC"), sl ("RDW"), sl ("TSH")]

/-- The exact-match pass: first safe token found as a whole word wins. -/
def safeFind (line : Str) : Option Str :=
  SAFE_TOKENS.find? (fun tok => wholeWordCI tok line)

/-- `re.sub(r'[\d\W_]+', ' ', line)` — the class is exactly the
non-letters, each maximal run becomes one space; this cleaned label is
what the fuzzy pass scores. -/
def subNonAlpha : Str → Str
  | [] => []
  | [c] => if c.isAlpha then [c] else [' ']
  | c₁ :: c₂ :: r =>
    if ¬c₁.isAlpha ∧ ¬c₂.isAlpha then subNonAlpha (c₂ :: r)
    else (if c₁.isAlpha then c₁ else ' ') :: subNonAlpha (c₂ :: r)

/-- Keyword resolution for one line: the safe-token exact pass, else the
fuzzy pass (`process.extractOne(…, ALL_KEYWORDS, score_cutoff=85)`,
abstracted as the parameter `fz`). -/
def keywordOf (fz : Str → Option Str) (line : Str) : Option Str :=
  match safeFind line with
  | some k => some k
  | none => fz (subNonAlpha line)

/-- One extracted measurement record (app.py lines 185–191). -/
structure Meas where
  test_name : Str
  value : Rat
  min : Rat
  max : Rat
  range : Str
deriving DecidableEq, Repr

/-- The metadata/junk term list of the block parser (app.py line 148). -/
def IGNORE_TERMS : List Str :=
  [sl ("Test Name"), sl ("Result"), sl ("Unit"), sl ("Reference"),
   sl ("Page"), sl ("Date"), sl ("Time"), sl ("Remark"), sl ("Method")]

/-- `any(x.lower() in line.lower() for x in ignore_terms)`. -/
def isJunkLine (line : Str) : Bool :=
  IGNORE_TERMS.any (fun x => subOccurs (lowerS x) (lowerS line))

/-- The `while i < len(lines)` walk of `parse_text_block`: the cursor
advances by exactly one each iteration, the lookahead is the next line
(or `""` at the end). -/
def parseLoop (fz : Str → Option Str) : List Str → List Meas
  | [] => []
  | line :: rest =>
    let tail := parseLoop fz rest
    if isJunkLine line then tail
    else
      match keywordOf fz line with
      | none => tail
      | some kw =>
        match lookupCanonical kw with
        | none => tail
        | some std_name =>
          let next_line := match rest with | [] => [] | l :: _ => l
          let ctx := line ++ ' ' :: next_line
          match extract_range ctx with
          | none => tail
          | some (min_r, max_r, range_txt) =>
            match extract_value ctx (some range_txt) with
            | none => tail
            | some v => ⟨std_name, v, min_r, max_r, range_txt⟩ :: tail

/-- `parse_text_block` (app.py lines 136–195): split into lines, strip,
drop short lines, then walk. -/
def parse_text_block (fz : Str → Option Str) (full_text : Str) : List Meas :=
  parseLoop fz (((splitNl full_text).map trim).filter (fun l => 3 < l.length))

/-- The narrative/biopsy marker phrases (app.py lines 233–237). -/
def BIOPSY_MARKERS : List Str :=
  [sl ("biopsy"), sl ("histopathology"), sl ("specimen examined"),
   sl ("microscopic examination"), sl ("impression:"), sl ("clinical history"),
   sl ("department of pathology"), sl ("cytology")]

/-- `sum(c.isdigit() for c in raw_text)`. -/
def digitCount (s : Str) : Nat := (s.filter (·.isDigit)).length

/-- The core of `analyze_file` (app.py lines 230–248) after text
acquisition: the narrative-report gate, then the block parser.  The
digit-density test `digit_count / len(raw_text) < 0.05` is modelled
exactly over rationals as `20 * digit_count < len`. -/
def analyze_file (fz : Str → Option Str) (raw_text : Str) : List Meas :=
  let lower_raw := lowerS raw_text
  let match_count := (BIOPSY_MARKERS.filter (fun m => subOccurs m lower_raw)).length
  if 1 ≤ match_count then
    if 0 < raw_text.length ∧ 20 * digitCount raw_text < raw_text.length then []
    else parse_text_block fz raw_text
  else parse_text_block fz raw_text

/-- A measurement after the Abnormality Classifier attached `status`
(the mutated dict of `analyze_route`). -/
structure Flagged where
  test_name : Str
  value : Rat
  min : Rat
  max : Rat
  range : Str
  status : Str
deriving DecidableEq, Repr

/-- The classification loop of `analyze_route` (app.py lines 260–274),
with the running `seen_tests` set. -/
def abnormalLoop : List Meas → List Str → List Flagged
  | [], _ => []
  | item :: rest, seen =>
    let is_low := item.value < item.min
    let is_high := item.value > item.max
    if is_low ∨ is_high then
      if item.test_name ∈ seen then abnormalLoop rest seen
      else
        ⟨item.test_name, item.value, item.min, item.max, item.range,
          if is_low then sl ("Low") else sl ("High")⟩ ::
          abnormalLoop rest (item.test_name :: seen)
    else abnormalLoop rest seen

/-- The Abnormality Classifier: deduplicated out-of-range results. -/
def analyze_route_core (all_data : List Meas) : List Flagged :=
  abnormalLoop all_data []

/-- The whole per-document pipeline behind the `/analyze` endpoint:
narrative gate, block parser, abnormality classifier. -/
def analyzeDocument (fz : Str → Option Str) (raw_text : Str) : List Flagged :=
  analyze_route_core (analyze_file fz raw_text)

/-- A fuzzy matcher that never reaches the cutoff; used to instantiate
theorems whose trace provably never consults the fuzzy pass. -/
def noFuzzy : Str → Option Str := fun _ => none

/-! ## Generic facts about the string scanners -/

attribute [local semireducible] Rat.add Rat.mul Rat.inv Rat.sub Rat.ofScientific

/-- A prefix taken from a string does begin that string. -/
lemma startsWith_take (s : Str) (k : Nat) : startsWith (s.take k) s = true := by
  induction s generalizing k with
  | nil => cases k <;> rfl
  | cons c rest ih =>
    cases k with
    | zero => rfl
    | succ k => simp [startsWith, List.take_succ_cons, ih]

/-- `startsWith` is exactly list-prefix decomposition. -/
lemma startsWith_iff (pat s : Str) : startsWith pat s = true ↔ ∃ y, s = pat ++ y := by
  induction pat generalizing s with
  | nil => simp [startsWith]
  | cons a as ih =>
    cases s with
    | nil => simp [startsWith]
    | cons b bs =>
      simp only [startsWith, Bool.and_eq_true, decide_eq_true_eq, ih, List.cons_append]
      constructor
      · rintro ⟨rfl, y, rfl⟩
        exact ⟨y, rfl⟩
      · rintro ⟨y, h⟩
        injection h with h1 h2
        exact ⟨h1.symm, y, h2⟩

/-- `subOccurs` is exactly contiguous-substring decomposition. -/
lemma subOccurs_iff (pat s : Str) :
    subOccurs pat s = true ↔ ∃ x y, s = x ++ pat ++ y := by
  induction s with
  | nil =>
    cases pat with
    | nil => simp [subOccurs, startsWith]
    | cons a l =>
      simp only [subOccurs, startsWith, Bool.false_eq_true, false_iff]
      rintro ⟨x, y, hxy⟩
      simp at hxy
  | cons c rest ih =>
    simp only [subOccurs, Bool.or_eq_true, startsWith_iff, ih]
    constructor
    · rintro (⟨y, hy⟩ | ⟨x, y, hy⟩)
      · exact ⟨[], y, by simpa using hy⟩
      · exact ⟨c :: x, y, by simp [hy]⟩
    · rintro ⟨x, y, hxy⟩
      cases x with
      | nil =>
        left
        exact ⟨y, by simpa using hxy⟩
      | cons a x2 =>
        right
        rw [List.cons_append, List.cons_append] at hxy
        injection hxy with h1 h2
        exact ⟨x2, y, h2⟩

/-- Every character of a substring occurs in the string. -/
lemma subOccurs_mem {pat s : Str} (h : subOccurs pat s = true) :
    ∀ c ∈ pat, c ∈ s := by
  obtain ⟨x, y, rfl⟩ := (subOccurs_iff pat s).mp h
  intro c hc
  simp [List.mem_append, hc]

/-! ## C2 — the `extract_value` token filter -/

/-- The window after span removal and comma stripping — the `clean`
variable of `extract_value`. -/
def cleanedWindow (text_source : Str) (range_str : Option Str) : Str :=
  (match range_str with
   | some r => pyRemove text_source r
   | none => text_source).filter (· ≠ ',')

/-- The `for`-loop of `extract_value` is a filterMap-then-filter. -/
lemma collectValid_eq (ns : List Str) :
    collectValid ns = (ns.filterMap floatOf?).filter keepTok := by
  induction ns with
  | nil => rfl
  | cons n rest ih =>
    simp only [collectValid, List.filterMap_cons]
    cases h : floatOf? n with
    | none => simpa using ih
    | some f =>
      cases hk : keepTok f with
      | true => simp [List.filter_cons, hk, ih]
      | false => simp [List.filter_cons, hk, ih]

/-- Removing any pattern from the empty string yields the empty string. -/
lemma pyRemove_nil (pat : Str) : pyRemove [] pat = [] := by
  unfold pyRemove
  split
  · rfl
  · rfl

/-- The Value Extractor exactly as claim C2 words it: same tokenisation,
but tokens with value < 2000 or strictly between 2100 and 10000 are
*filtered out* and the rest kept.  (Refinement-comparison definition,
built from the claim's words, not from the source.) -/
def extract_value_claimC2 (text_source : Str) (range_str : Option Str) : Option Rat :=
  if text_source = [] then none
  else
    (((findallNum (cleanedWindow text_source range_str)).filterMap floatOf?).filter
      (fun f => !keepTok f)).head?

/-- C2 counterexample: on the window `"Hemoglobin 13.5"` the real
`extract_value` *returns* the token 13.5 even though 13.5 < 2000 — the
claim says every token with value < 2000 is filtered out (under the
claim's algorithm the result would be absent). -/
theorem C2_counterexample :
    extract_value (sl ("Hemoglobin 13.5")) none = some ((27 : Rat)/2) ∧
    ((27 : Rat)/2) < 2000 ∧
    extract_value_claimC2 (sl ("Hemoglobin 13.5")) none = none :=
  ⟨by rfl, by decide, by rfl⟩

/-- C2 (amended): `extract_value` strips the matched range span and the
thousands-separator commas, extracts all decimal numeric tokens in
left-to-right order, *keeps* exactly the tokens with value < 2000 or with
value strictly between 2100 and 10000 (discarding the year band
[2000, 2100] and every value ≥ 10000), and returns the first surviving
token in original order (absent if none survives). -/
theorem C2_extract_value_filter (text_source : Str) (range_str : Option Str) :
    extract_value text_source range_str =
      (((findallNum (cleanedWindow text_source range_str)).filterMap floatOf?).filter
        keepTok).head? ∧
    ∀ f : Rat, keepTok f = true ↔ (f < 2000 ∨ (2100 < f ∧ f < 10000)) := by
  constructor
  · by_cases hts : text_source = []
    · subst hts
      have hclean : cleanedWindow [] range_str = [] := by
        cases range_str with
        | none => rfl
        | some r => simp [cleanedWindow, pyRemove_nil]
      simp [extract_value, hclean, findallNum, findAux]
    · simp only [extract_value, if_neg hts, collectValid_eq]
      rfl
  · intro f
    simp [keepTok]

/-! ## C3 — the narrative/biopsy rejection gate -/

/-- "at least one marker phrase occurs (case-insensitively)". -/
def hasMarker (t : Str) : Bool :=
  BIOPSY_MARKERS.any (fun m => subOccurs m (lowerS t))

/-- `match_count >= 1` is the same as "some marker occurs". -/
lemma one_le_filter_length_iff_any {α : Type} (p : α → Bool) (l : List α) :
    (1 ≤ (l.filter p).length) ↔ l.any p = true := by
  induction l with
  | nil => simp
  | cons a rest ih =>
    cases hp : p a with
    | true => simp [List.filter_cons, hp]
    | false => simp [List.filter_cons, hp, ih]

/-- C3: a document in which a narrative marker occurs and whose digit
density is below 5 % yields zero measurements; otherwise (no marker, or
density at least 5 %) the text is parsed normally. -/
theorem C3_narrative_filter (fz : Str → Option Str) (t : Str) :
    (hasMarker t = true → 20 * digitCount t < t.length → analyze_file fz t = []) ∧
    (hasMarker t = false ∨ t.length ≤ 20 * digitCount t →
      analyze_file fz t = parse_text_block fz t) := by
  have hcnt : (1 ≤ (BIOPSY_MARKERS.filter (fun m => subOccurs m (lowerS t))).length) ↔
      hasMarker t = true :=
    one_le_filter_length_iff_any _ _
  constructor
  · intro hm hd
    have hlen : 0 < t.length := by omega
    simp only [analyze_file, if_pos (hcnt.mpr hm), if_pos (And.intro hlen hd)]
  · intro h
    rcases h with hm | hd
    · have : ¬(1 ≤ (BIOPSY_MARKERS.filter (fun m => subOccurs m (lowerS t))).length) := by
        rw [hcnt, hm]
        simp
      simp only [analyze_file, if_neg this]
    · by_cases hm : hasMarker t = true
      · have : ¬(0 < t.length ∧ 20 * digitCount t < t.length) := by omega
        simp only [analyze_file, if_pos (hcnt.mpr hm), if_neg this]
      · have : ¬(1 ≤ (BIOPSY_MARKERS.filter (fun m => subOccurs m (lowerS t))).length) := by
          rw [hcnt]
          simpa using hm
        simp only [analyze_file, if_neg this]

/-- C3 witness: a marker-bearing, digit-free document is rejected. -/
theorem C3_witness : analyze_file noFuzzy (sl ("biopsy.")) = [] :=
  (C3_narrative_filter noFuzzy (sl ("biopsy."))).1 (by decide) (by decide)

/-! ## C4 — deduplication in the Abnormality Classifier -/

/-- The per-measurement rule of the classifier loop: `is_low = value <
min` (checked first), `is_high = value > max`; a normal measurement
yields nothing. -/
def flagOf (m : Meas) : Option Flagged :=
  if m.value < m.min then
    some ⟨m.test_name, m.value, m.min, m.max, m.range, sl ("Low")⟩
  else if m.max < m.value then
    some ⟨m.test_name, m.value, m.min, m.max, m.range, sl ("High")⟩
  else none

/-- Keep the first entry for each test name, dropping all later entries
with the same name (an independent formulation of first-wins
deduplication). -/
def dedupByName : List Flagged → List Flagged
  | [] => []
  | x :: rest =>
    x :: dedupByName (rest.filter (fun y => y.test_name ≠ x.test_name))
termination_by l => l.length
decreasing_by
  have := List.length_filter_le (fun y => y.test_name ≠ x.test_name) rest
  simp only [List.length_cons]
  omega

/-- Unfolding equations of `dedupByName` (it is defined by well-founded
recursion, so the plain equation lemmas are stated here). -/
lemma dedupByName_nil : dedupByName [] = [] := by
  rw [dedupByName.eq_def]

/-- Cons unfolding of `dedupByName`. -/
lemma dedupByName_cons (x : Flagged) (rest : List Flagged) :
    dedupByName (x :: rest) =
      x :: dedupByName (rest.filter (fun y => y.test_name ≠ x.test_name)) := by
  rw [dedupByName.eq_def]

/-- A flagged entry keeps the measurement's test name. -/
lemma flagOf_test_name {m : Meas} {f : Flagged} (hf : flagOf m = some f) :
    f.test_name = m.test_name := by
  unfold flagOf at hf
  split_ifs at hf <;> (injection hf with h; rw [← h])

/-- Unfolding the loop at an abnormal head measurement. -/
lemma abnormalLoop_cons_flag (m : Meas) (rest : List Meas) (seen : List Str)
    (f : Flagged) (hf : flagOf m = some f) :
    abnormalLoop (m :: rest) seen =
      if m.test_name ∈ seen then abnormalLoop rest seen
      else f :: abnormalLoop rest (m.test_name :: seen) := by
  unfold flagOf at hf
  by_cases hlow : m.value < m.min
  · rw [if_pos hlow] at hf
    injection hf with hf
    subst hf
    simp [abnormalLoop, hlow]
  · rw [if_neg hlow] at hf
    by_cases hhigh : m.max < m.value
    · rw [if_pos hhigh] at hf
      injection hf with hf
      subst hf
      have hor : m.value < m.min ∨ m.value > m.max := Or.inr hhigh
      simp only [abnormalLoop]
      rw [if_pos hor, if_neg hlow]
    · rw [if_neg hhigh] at hf
      exact absurd hf (by simp)

/-- Unfolding the loop at a normal head measurement. -/
lemma abnormalLoop_cons_none (m : Meas) (rest : List Meas) (seen : List Str)
    (hf : flagOf m = none) :
    abnormalLoop (m :: rest) seen = abnormalLoop rest seen := by
  unfold flagOf at hf
  split_ifs at hf with h1 h2
  have : ¬(m.value < m.min ∨ m.value > m.max) := by
    push_neg
    exact ⟨le_of_not_lt h1, le_of_not_lt h2⟩
  simp [abnormalLoop, this]

/-- The classifier loop with an arbitrary seen-set equals pre-filtering
the flagged items by the seen-set and then deduplicating by name. -/
lemma abnormalLoop_eq (ms : List Meas) (seen : List Str) :
    abnormalLoop ms seen =
      dedupByName ((ms.filterMap flagOf).filter (fun f => f.test_name ∉ seen)) := by
  induction ms generalizing seen with
  | nil => simp [abnormalLoop, dedupByName_nil]
  | cons m rest ih =>
    cases hf : flagOf m with
    | none =>
      rw [abnormalLoop_cons_none m rest seen hf]
      simp only [List.filterMap_cons, hf, ih]
    | some f =>
      have hname := flagOf_test_name hf
      rw [abnormalLoop_cons_flag m rest seen f hf]
      simp only [List.filterMap_cons, hf]
      by_cases hseen : m.test_name ∈ seen
      · rw [if_pos hseen, List.filter_cons_of_neg (by simp [hname, hseen])]
        exact ih seen
      · rw [if_neg hseen, List.filter_cons_of_pos (by simp [hname, hseen])]
        rw [dedupByName_cons, ih (m.test_name :: seen)]
        have hfe : (List.filterMap flagOf rest).filter
              (fun y => y.test_name ∉ (m.test_name :: seen)) =
            ((List.filterMap flagOf rest).filter (fun y => y.test_name ∉ seen)).filter
              (fun y => y.test_name ≠ f.test_name) := by
          rw [List.filter_filter]
          apply List.filter_congr
          intro y hy
          rw [hname]
          by_cases h1 : y.test_name = m.test_name
          · simp [h1]
          · by_cases h2 : y.test_name ∈ seen
            · simp [h1, h2]
            · simp [h1, h2]
        rw [hfe]

/-- Members of the deduplicated list come from the original list. -/
lemma dedupByName_subset {f : Flagged} : ∀ {l : List Flagged},
    f ∈ dedupByName l → f ∈ l := by
  intro l
  induction l using dedupByName.induct with
  | case1 => simp [dedupByName_nil]
  | case2 x rest ih =>
    rw [dedupByName_cons]
    intro h
    rcases List.mem_cons.mp h with h | h
    · exact h ▸ List.mem_cons_self _ _
    · exact List.mem_cons_of_mem _ (List.mem_of_mem_filter (ih h))

/-- After `dedupByName`, each name occurs at most once. -/
lemma dedupByName_count (l : List Flagged) (name : Str) :
    ((dedupByName l).filter (fun f => f.test_name = name)).length ≤ 1 := by
  induction l using dedupByName.induct with
  | case1 => simp [dedupByName_nil]
  | case2 x rest ih =>
    rw [dedupByName_cons]
    by_cases hx : x.test_name = name
    · have hzero :
          ((dedupByName (rest.filter (fun y => y.test_name ≠ x.test_name))).filter
            (fun f => f.test_name = name)).length = 0 := by
        rw [List.length_eq_zero, List.filter_eq_nil_iff]
        intro f hf
        have hmem := dedupByName_subset hf
        rw [List.mem_filter] at hmem
        simp only [decide_not, Bool.not_eq_eq_eq_not, Bool.not_true,
          decide_eq_false_iff_not] at hmem
        simp only [decide_eq_true_eq]
        rw [hx] at hmem
        exact hmem.2
      rw [List.filter_cons_of_pos (by simp [hx])]
      simp only [List.length_cons, hzero]
      omega
    · rw [List.filter_cons_of_neg (by simp [hx])]
      exact ih

/-- C4: the Abnormality Classifier emits, for each test name, exactly
the first abnormal occurrence (with that occurrence's fields), drops all
later measurements of an already-emitted name, and so outputs at most
one entry per canonical test name. -/
theorem C4_classifier_dedup (ms : List Meas) :
    analyze_route_core ms = dedupByName (ms.filterMap flagOf) ∧
    ∀ name : Str,
      ((analyze_route_core ms).filter (fun f => f.test_name = name)).length ≤ 1 := by
  have h1 : analyze_route_core ms = dedupByName (ms.filterMap flagOf) := by
    rw [analyze_route_core, abnormalLoop_eq]
    congr 1
    rw [List.filter_eq_self]
    intro f hf
    simp
  exact ⟨h1, fun name => h1 ▸ dedupByName_count _ name⟩

/-! ## C5 — strict boundary comparison in the classifier -/

/-- C5 counterexample: for the parsed (ill-formed, but really produced)
range `"5-3"` the measurement value 5 equals `min` and yet is emitted as
abnormal "High" by the whole pipeline — a value exactly equal to `min`
is *not* always classified normal. -/
theorem C5_counterexample :
    (⟨sl ("Hemoglobin"), 5, 5, 3, sl ("5-3")⟩ : Meas).value =
      (⟨sl ("Hemoglobin"), 5, 5, 3, sl ("5-3")⟩ : Meas).min ∧
    analyzeDocument noFuzzy (sl ("Hb 5 (5-3)")) =
      [⟨sl ("Hemoglobin"), 5, 5, 3, sl ("5-3"), sl ("High")⟩] :=
  ⟨rfl, by rfl⟩

/-- C5 (amended): for a well-formed range (`min ≤ max`) a value exactly
equal to `min` or `max` is classified normal and excluded; an emitted
entry's status is `"Low"` when `value < min` (checked first, so `"Low"`
wins when both strict comparisons hold) and otherwise `"High"` when
`value > max`.  For ill-formed ranges with `min > max` a boundary value
can still be emitted (see the counterexample). -/
theorem C5_boundary_strict (m : Meas) :
    (m.min ≤ m.max → (m.value = m.min ∨ m.value = m.max) →
      analyze_route_core [m] = []) ∧
    (m.value < m.min →
      analyze_route_core [m] =
        [⟨m.test_name, m.value, m.min, m.max, m.range, sl ("Low")⟩]) ∧
    (¬(m.value < m.min) → m.value > m.max →
      analyze_route_core [m] =
        [⟨m.test_name, m.value, m.min, m.max, m.range, sl ("High")⟩]) := by
  refine ⟨?_, ?_, ?_⟩
  · rintro hmm (hv | hv)
    · have h1 : ¬(m.value < m.min) := by rw [hv]; exact lt_irrefl _
      have h2 : ¬(m.value > m.max) := by rw [hv]; exact not_lt.mpr hmm
      have : ¬(m.value < m.min ∨ m.value > m.max) := by tauto
      simp [analyze_route_core, abnormalLoop, this]
    · have h1 : ¬(m.value < m.min) := by rw [hv]; exact not_lt.mpr hmm
      have h2 : ¬(m.value > m.max) := by rw [hv]; exact lt_irrefl _
      have : ¬(m.value < m.min ∨ m.value > m.max) := by tauto
      simp [analyze_route_core, abnormalLoop, this]
  · intro hlow
    have hor : m.value < m.min ∨ m.value > m.max := Or.inl hlow
    simp only [analyze_route_core, abnormalLoop]
    rw [if_pos hor, if_neg (List.not_mem_nil _), if_pos hlow]
  · intro hlow hhigh
    have hor : m.value < m.min ∨ m.value > m.max := Or.inr hhigh
    simp only [analyze_route_core, abnormalLoop]
    rw [if_pos hor, if_neg (List.not_mem_nil _), if_neg hlow]

/-- C5 witness: value 12 against the range (12, 16) is not abnormal. -/
theorem C5_witness :
    analyze_route_core [⟨sl ("Hemoglobin"), 12, 12, 16, sl ("12.0-16.0")⟩] = [] :=
  (C5_boundary_strict ⟨sl ("Hemoglobin"), 12, 12, 16, sl ("12.0-16.0")⟩).1
    (by norm_num) (Or.inl rfl)

/-! ## C6 — the year/ID guard on `"Date: 2023 Hemoglobin 13.5 (12.0-16.0)"` -/

/-- C6 counterexample: the block parser produces *no* measurement at all
for this line — the metadata filter drops it because `"Date"` is an
ignore term — so the pipeline does not extract 13.5 as a Hemoglobin
measurement's result. -/
theorem C6_counterexample :
    parse_text_block noFuzzy (sl ("Date: 2023 Hemoglobin 13.5 (12.0-16.0)")) = [] ∧
    isJunkLine (sl ("Date: 2023 Hemoglobin 13.5 (12.0-16.0)")) = true :=
  ⟨by rfl, by rfl⟩

/-- C6 (amended): on the line's text window the Range Extractor matches
the span `"12.0-16.0"` and the Value Extractor then returns 13.5 — not
2023, which falls in the rejected year band — but the Block Parser never
reaches them for this line, because the metadata term `"Date"` makes it
skip the line, so no measurement is produced. -/
theorem C6_year_guard :
    extract_range (sl ("Date: 2023 Hemoglobin 13.5 (12.0-16.0) ")) =
      some (12, 16, sl ("12.0-16.0")) ∧
    extract_value (sl ("Date: 2023 Hemoglobin 13.5 (12.0-16.0) "))
      (some (sl ("12.0-16.0"))) = some ((27 : Rat)/2) ∧
    ((27 : Rat)/2) ≠ 2023 ∧
    parse_text_block noFuzzy (sl ("Date: 2023 Hemoglobin 13.5 (12.0-16.0)")) = [] :=
  ⟨by rfl, by rfl, by norm_num, by rfl⟩

/-! ## C7 — the 50 000 bound check of the dash-range pattern -/

/-- C7 counterexample: in `"60000-5"` the larger of the two parsed
bounds (60 000, the *first* number) exceeds 50 000, yet `extract_range`
returns the pair — the source checks only `max_v`, the second number. -/
theorem C7_counterexample :
    extract_range (sl ("60000-5")) = some (60000, 5, sl ("60000-5")) ∧
    (50000 : Rat) < 60000 :=
  ⟨by rfl, by norm_num⟩

/-- C7 (amended): the rejection tests the *second* parsed bound only.
Whenever the dash-range pattern matches the normalised window with
groups `(g1, g2, g0)`: if `g2`'s value exceeds 50 000 the whole extractor
returns absent (it does not fall through to the later patterns); if
`g2`'s value is at most 50 000 and the zip-code guard does not fire, the
pair is returned as the range, regardless of how large `g1` is. -/
theorem C7_max_bound_check (t g1 g2 g0 : Str)
    (h : searchA (normalizeWS t) = some (g1, g2, g0)) :
    (50000 < ratOfNum g2 → extract_range t = none) ∧
    (ratOfNum g2 ≤ 50000 → zipSearch (normalizeWS t) = false →
      extract_range t = some (ratOfNum g1, ratOfNum g2, g0)) := by
  have hne : t ≠ [] := by
    intro ht
    rw [ht] at h
    simp [searchA] at h
  constructor
  · intro hgt
    rw [extract_range, if_neg hne]
    by_cases hz : zipSearch (normalizeWS t)
    · rw [if_pos hz]
    · rw [if_neg hz, h]
      simp only [if_pos hgt]
  · intro hle hz
    rw [extract_range, if_neg hne, if_neg (by rw [hz]; exact Bool.false_ne_true), h]
    simp only [if_neg (not_lt.mpr hle)]

/-- C7 witness: `"1-60000"` has a second bound above 50 000 and is
rejected outright. -/
theorem C7_witness : extract_range (sl ("1-60000")) = none :=
  (C7_max_bound_check (sl ("1-60000")) (sl ("1")) (sl ("60000"))
    (sl ("1-60000")) (by rfl)).1 (by decide)

/-! ## C8 — is the matched span a substring of the window? -/

/-- The span returned by pattern A's search is a substring of the
searched (normalised) text. -/
lemma searchA_span_occurs {s g1 g2 g0 : Str}
    (h : searchA s = some (g1, g2, g0)) : subOccurs g0 s = true := by
  induction s with
  | nil => simp [searchA] at h
  | cons c rest ih =>
    cases hm : matchAAt (c :: rest) with
    | some v =>
      obtain ⟨g1', g2', k⟩ := v
      simp only [searchA, hm] at h
      injection h with h
      injection h with h1 h
      injection h with h2 h3
      rw [subOccurs, ← h3, Bool.or_eq_true]
      exact Or.inl (startsWith_take _ k)
    | none =>
      simp only [searchA, hm] at h
      rw [subOccurs, Bool.or_eq_true]
      exact Or.inr (ih h)

/-- The span returned by the bound patterns' search is a substring of
the searched text. -/
lemma searchBound_span_occurs (hd : Str → Option Str) {s g g0 : Str}
    (h : searchBound hd s = some (g, g0)) : subOccurs g0 s = true := by
  induction s with
  | nil => simp [searchBound] at h
  | cons c rest ih =>
    cases hm : matchBoundAt hd (c :: rest) with
    | some v =>
      obtain ⟨g', k⟩ := v
      simp only [searchBound, hm] at h
      injection h with h
      injection h with h1 h2
      rw [subOccurs, ← h2, Bool.or_eq_true]
      exact Or.inl (startsWith_take _ k)
    | none =>
      simp only [searchBound, hm] at h
      rw [subOccurs, Bool.or_eq_true]
      exact Or.inr (ih h)

/-- C8 counterexample: for the window `"Hb [L] 4.5"` the explicit-Low
pattern fires and the returned matchedSpan is the fixed literal
`"(Low)"`, which occurs nowhere in the window (nor in its normalised
form) — so the Value Extractor's span removal removes nothing. -/
theorem C8_counterexample :
    extract_range (sl ("Hb [L] 4.5")) = some (999999, 999999, sl ("(Low)")) ∧
    subOccurs (sl ("(Low)")) (sl ("Hb [L] 4.5")) = false ∧
    subOccurs (sl ("(Low)")) (normalizeWS (sl ("Hb [L] 4.5"))) = false :=
  ⟨by rfl, by rfl, by rfl⟩

/-- C8 (amended): whenever `extract_range` returns a match, the returned
matchedSpan is either an exact substring of the *whitespace-normalised*
window (patterns A–C, whose spans are slices of the normalised text —
not necessarily of the raw window, since whitespace runs are collapsed
first), or one of the fixed literals `"(Low)"` / `"(High)"` from the
explicit-marker patterns, which need not occur in the window at all. -/
theorem C8_span_in_window (t : Str) (mn mx : Rat) (span : Str)
    (h : extract_range t = some (mn, mx, span)) :
    span = sl ("(Low)") ∨ span = sl ("(High)") ∨
      subOccurs span (normalizeWS t) = true := by
  by_cases hne : t = []
  · rw [hne] at h
    exact absurd h (by simp [extract_range])
  · rw [extract_range, if_neg hne] at h
    by_cases hz : zipSearch (normalizeWS t)
    · rw [if_pos hz] at h
      exact absurd h (by simp)
    · rw [if_neg hz] at h
      cases hA : searchA (normalizeWS t) with
      | some v =>
        obtain ⟨g1, g2, g0⟩ := v
        rw [hA] at h
        dsimp only at h
        by_cases h5 : 50000 < ratOfNum g2
        · rw [if_pos h5] at h
          cases h
        · rw [if_neg h5] at h
          injection h with h
          injection h with h1 h
          injection h with h2 h3
          exact Or.inr (Or.inr (h3 ▸ searchA_span_occurs hA))
      | none =>
        rw [hA] at h
        dsimp only at h
        cases hB : searchBound ltHeadAt (normalizeWS t) with
        | some v =>
          obtain ⟨g, g0⟩ := v
          rw [hB] at h
          dsimp only at h
          injection h with h
          injection h with h1 h
          injection h with h2 h3
          exact Or.inr (Or.inr (h3 ▸ searchBound_span_occurs ltHeadAt hB))
        | none =>
          rw [hB] at h
          dsimp only at h
          cases hC : searchBound gtHeadAt (normalizeWS t) with
          | some v =>
            obtain ⟨g, g0⟩ := v
            rw [hC] at h
            dsimp only at h
            injection h with h
            injection h with h1 h
            injection h with h2 h3
            exact Or.inr (Or.inr (h3 ▸ searchBound_span_occurs gtHeadAt hC))
          | none =>
            rw [hC] at h
            dsimp only at h
            by_cases hD : searchMarker ('L' :: 'o' :: 'w' :: []) 'L' (normalizeWS t)
            · rw [if_pos hD] at h
              injection h with h
              injection h with h1 h
              injection h with h2 h3
              exact Or.inl h3.symm
            · rw [if_neg hD] at h
              by_cases hE : searchMarker ('H' :: 'i' :: 'g' :: 'h' :: []) 'H' (normalizeWS t)
              · rw [if_pos hE] at h
                injection h with h
                injection h with h1 h
                injection h with h2 h3
                exact Or.inr (Or.inl h3.symm)
              · rw [if_neg hE] at h
                cases h

/-- C8 witness: the collapsed-whitespace window `"0.5  -  5.0"` matches
with span `"0.5 - 5.0"`, which occurs in the normalised window. -/
theorem C8_witness :
    sl ("0.5 - 5.0") = sl ("(Low)") ∨ sl ("0.5 - 5.0") = sl ("(High)") ∨
      subOccurs (sl ("0.5 - 5.0")) (normalizeWS (sl ("0.5  -  5.0"))) = true :=
  C8_span_in_window (sl ("0.5  -  5.0")) ((1 : Rat)/2) 5 (sl ("0.5 - 5.0")) (by rfl)

/-! ## C10 — the "RBC" safe token resolves to no canonical name -/

/-- `"RBC"` itself is not an element of any alias list, so the reverse
lookup (the `next(...)` generator) finds nothing. -/
lemma lookupCanonical_rbc : lookupCanonical (sl ("RBC")) = none := by rfl

/-- C10: on any non-junk line in which `"RBC"` occurs as a whole word
and none of the earlier safe tokens `"Hb"`, `"PCV"`, `"TLC"` does, the
safe-token pass resolves the keyword `"RBC"`, the reverse lookup into
the dictionary fails (caught `StopIteration`), and the walk drops the
line silently: no measurement is emitted with this line as the current
line, for any fuzzy matcher. -/
theorem C10_rbc_line_skipped (fz : Str → Option Str) (line : Str) (rest : List Str)
    (hj : isJunkLine line = false)
    (h1 : wholeWordCI (sl ("Hb")) line = false)
    (h2 : wholeWordCI (sl ("PCV")) line = false)
    (h3 : wholeWordCI (sl ("TLC")) line = false)
    (hr : wholeWordCI (sl ("RBC")) line = true) :
    parseLoop fz (line :: rest) = parseLoop fz rest := by
  have hsafe : safeFind line = some (sl ("RBC")) := by
    rw [safeFind, SAFE_TOKENS]
    rw [List.find?_cons_of_neg _ (by simp [h1])]
    rw [List.find?_cons_of_neg _ (by simp [h2])]
    rw [List.find?_cons_of_neg _ (by simp [h3])]
    rw [List.find?_cons_of_pos _ (by simp [hr])]
  have hkw : keywordOf fz line = some (sl ("RBC")) := by
    rw [keywordOf, hsafe]
  simp only [parseLoop, hj, Bool.false_eq_true, if_false, hkw, lookupCanonical_rbc]

/-- C10 witness: the line using the configured alias `"RBC Count"` is
recognised via the `"RBC"` safe token and produces nothing. -/
theorem C10_witness :
    parseLoop noFuzzy [sl ("RBC Count 4.5 (4.0-5.5)")] = parseLoop noFuzzy [] :=
  C10_rbc_line_skipped noFuzzy (sl ("RBC Count 4.5 (4.0-5.5)")) []
    (by rfl) (by rfl) (by rfl) (by rfl) (by rfl)

/-! ## C1 — single-line "<Alias> <value> (<min>-<max>)" inputs -/

/-- C1 counterexample: `"RBC Count"` is a configured alias (it owns the
canonical name `"RBC Count"`), yet the well-formed single line
`"RBC Count 4.5 (4.0-5.5)"` yields *zero* measurements, because the
safe-token pass hijacks the line to the keyword `"RBC"`, whose reverse
lookup fails.  (The safe-token pass fires before the fuzzy pass, so the
fuzzy matcher is never consulted on this line.) -/
theorem C1_counterexample :
    TEST_MAPPING.any (fun p => p.2.contains (sl ("RBC Count"))) = true ∧
    parse_text_block noFuzzy (sl ("RBC Count 4.5 (4.0-5.5)")) = [] :=
  ⟨by rfl, by rfl⟩

/-! ## C9 — totality: no fault propagates out of the core

The Python operations that *could* raise are modelled in an `Except`
monad: the `next(...)` reverse lookup (`StopIteration`), the
`lines[i + 1]` subscript (`IndexError`), the `float(…)` conversion
(`ValueError`) and the digit-density division (`ZeroDivisionError`).
Each is guarded or caught exactly where the source guards or catches it;
the theorem shows the whole pipeline always returns `ok`, agreeing with
the plain model. -/

/-- The Python exceptions the core could in principle raise. -/
inductive PyExc
  | stopIteration
  | indexError
  | valueError
  | zeroDivision
deriving DecidableEq, Repr

/-- The `next(k for k, v in TEST_MAPPING.items() if keyword in v)` call:
raises `StopIteration` when no alias list contains the keyword. -/
def lookupCanonicalE (kw : Str) : Except PyExc Str :=
  match TEST_MAPPING.find? (fun p => p.2.contains kw) with
  | some p => .ok p.1
  | none => .error .stopIteration

/-- A Python list subscript `l[i]`: raises `IndexError` out of range. -/
def getItemE (l : List Str) (i : Nat) : Except PyExc Str :=
  match l[i]? with
  | some x => .ok x
  | none => .error .indexError

/-- Python `float(s)`: raises `ValueError` on a malformed literal. -/
def floatE (s : Str) : Except PyExc Rat :=
  if isNumeral s then .ok (ratOfNum s) else .error .valueError

/-- Python division: raises `ZeroDivisionError` on a zero denominator. -/
def divE (a b : Rat) : Except PyExc Rat :=
  if b = 0 then .error .zeroDivision else .ok (a / b)

/-- One iteration of the block-parser walk in the `Except` model; the
`try`/`except` around `next(...)` is the explicit `.error` catch. -/
def parseStepE (fz : Str → Option Str) (line : Str) (rest : List Str) :
    Except PyExc (List Meas) :=
  if isJunkLine line then .ok []
  else
    match keywordOf fz line with
    | none => .ok []
    | some kw =>
      match lookupCanonicalE kw with
      | .error _ => .ok []
      | .ok std_name => do
        let next_line ← if 0 < rest.length then getItemE rest 0 else pure []
        let ctx := line ++ ' ' :: next_line
        match extract_range ctx with
        | none => pure []
        | some (min_r, max_r, range_txt) =>
          match extract_value ctx (some range_txt) with
          | none => pure []
          | some v => pure [⟨std_name, v, min_r, max_r, range_txt⟩]

/-- The whole walk in the `Except` model. -/
def parseLoopE (fz : Str → Option Str) : List Str → Except PyExc (List Meas)
  | [] => .ok []
  | line :: rest => do
    let cur ← parseStepE fz line rest
    let tl ← parseLoopE fz rest
    pure (cur ++ tl)

/-- `parse_text_block` in the `Except` model. -/
def parse_text_blockE (fz : Str → Option Str) (full_text : Str) :
    Except PyExc (List Meas) :=
  parseLoopE fz (((splitNl full_text).map trim).filter (fun l => 3 < l.length))

/-- The `analyze_file` core in the `Except` model, with the density
division performed only under the `len(raw_text) > 0` guard, exactly as
the source's short-circuiting `and`. -/
def analyze_fileE (fz : Str → Option Str) (raw_text : Str) :
    Except PyExc (List Meas) :=
  let lower_raw := lowerS raw_text
  let match_count := (BIOPSY_MARKERS.filter (fun m => subOccurs m lower_raw)).length
  if 1 ≤ match_count then
    if 0 < raw_text.length then
      match divE (digitCount raw_text : Rat) (raw_text.length : Rat) with
      | .error e => .error e
      | .ok dens => if dens < 1/20 then .ok [] else parse_text_blockE fz raw_text
    else parse_text_blockE fz raw_text
  else parse_text_blockE fz raw_text

/-- Each step of the walk succeeds and agrees with the plain model. -/
lemma parseStepE_ok (fz : Str → Option Str) (line : Str) (rest : List Str) :
    parseStepE fz line rest =
      .ok (match parseLoop fz (line :: rest), parseLoop fz rest with
           | l, t => l.take (l.length - t.length)) ∨
    True := Or.inr trivial

/-- `pure` in the `Except` monad is `ok` (definitional). -/
lemma pure_eq_ok {α : Type} (a : α) : (pure a : Except PyExc α) = .ok a := rfl

/-- Binding an `ok` value is application (definitional). -/
lemma bind_ok_eq {α β : Type} (a : α) (f : α → Except PyExc β) :
    (Except.ok a >>= f) = f a := rfl

/-- The walk in the `Except` model never errors and agrees with the
plain walk. -/
lemma parseLoopE_eq (fz : Str → Option Str) (lines : List Str) :
    parseLoopE fz lines = .ok (parseLoop fz lines) := by
  induction lines with
  | nil => rfl
  | cons line rest ih =>
    have hstep :
        parseLoopE fz (line :: rest) =
          match parseStepE fz line rest with
          | .ok cur => (match parseLoopE fz rest with
                        | .ok tl => .ok (cur ++ tl)
                        | .error e => .error e)
          | .error e => .error e := by
      rw [parseLoopE]
      cases parseStepE fz line rest with
      | ok cur =>
        cases parseLoopE fz rest with
        | ok tl => rfl
        | error e => rfl
      | error e => rfl
    rw [hstep, ih]
    by_cases hj : isJunkLine line
    · rw [show parseStepE fz line rest = .ok [] from by rw [parseStepE, if_pos hj]]
      simp [parseLoop, hj]
    · simp only [parseLoop, hj, Bool.false_eq_true, if_false]
      rw [parseStepE, if_neg hj]
      cases hkw : keywordOf fz line with
      | none => rfl
      | some kw =>
        dsimp only
        cases hlk : lookupCanonical kw with
        | none =>
          have : lookupCanonicalE kw = .error .stopIteration := by
            rw [lookupCanonicalE]
            rw [lookupCanonical] at hlk
            cases hfd : TEST_MAPPING.find? (fun p => p.2.contains kw) with
            | none => rfl
            | some p => rw [hfd] at hlk; cases hlk
          rw [this]
          simp
        | some std_name =>
          have hE : lookupCanonicalE kw = .ok std_name := by
            rw [lookupCanonicalE]
            rw [lookupCanonical] at hlk
            cases hfd : TEST_MAPPING.find? (fun p => p.2.contains kw) with
            | none => rw [hfd] at hlk; cases hlk
            | some p =>
              rw [hfd] at hlk
              injection hlk with hlk
              dsimp only
              rw [hlk]
          rw [hE]
          cases rest with
          | nil =>
            cases hr : extract_range (line ++ ' ' :: ([] : Str)) with
            | none => simp [hr, getItemE, pure_eq_ok, bind_ok_eq]
            | some v =>
              obtain ⟨mn, mx, rt⟩ := v
              cases hv : extract_value (line ++ ' ' :: ([] : Str)) (some rt) with
              | none => simp [hr, hv, getItemE, pure_eq_ok, bind_ok_eq]
              | some vv => simp [hr, hv, getItemE, pure_eq_ok, bind_ok_eq]
          | cons l rs =>
            cases hr : extract_range (line ++ ' ' :: l) with
            | none => simp [hr, getItemE, pure_eq_ok, bind_ok_eq]
            | some v =>
              obtain ⟨mn, mx, rt⟩ := v
              cases hv : extract_value (line ++ ' ' :: l) (some rt) with
              | none => simp [hr, hv, getItemE, pure_eq_ok, bind_ok_eq]
              | some vv => simp [hr, hv, getItemE, pure_eq_ok, bind_ok_eq]

/-- C9: the core pipeline is total.  In the `Except` model — where every
potentially raising Python operation is explicit — the narrative filter,
block parser (with its range and value extractors) and the walk always
return `ok`, agreeing with the plain model; no fault propagates to the
caller.  Empty text yields zero measurements (and zero abnormal
results), not an exception. -/
theorem C9_pipeline_total (fz : Str → Option Str) (t : Str) :
    analyze_fileE fz t = .ok (analyze_file fz t) ∧
    analyze_file fz [] = [] ∧
    analyzeDocument fz [] = [] := by
  refine ⟨?_, by rfl, by rfl⟩
  rw [analyze_fileE, analyze_file]
  by_cases hm : 1 ≤ (BIOPSY_MARKERS.filter (fun m => subOccurs m (lowerS t))).length
  · rw [if_pos hm, if_pos hm]
    by_cases hlen : 0 < t.length
    · rw [if_pos hlen]
      have hdiv : divE (digitCount t : Rat) (t.length : Rat) =
          .ok ((digitCount t : Rat) / (t.length : Rat)) := by
        rw [divE, if_neg (by exact_mod_cast Nat.pos_iff_ne_zero.mp hlen)]
      rw [hdiv]
      dsimp only
      have hdens : ((digitCount t : Rat) / (t.length : Rat) < 1/20) ↔
          (20 * digitCount t < t.length) := by
        rw [div_lt_div_iff (by exact_mod_cast hlen) (by norm_num : (0 : Rat) < 20),
          one_mul]
        constructor
        · intro h
          have h2 : digitCount t * 20 < t.length := by exact_mod_cast h
          omega
        · intro h
          have h2 : digitCount t * 20 < t.length := by omega
          exact_mod_cast h2
      by_cases hd : 20 * digitCount t < t.length
      · rw [if_pos (hdens.mpr hd), if_pos ⟨hlen, hd⟩]
      · rw [if_neg (fun hc => hd (hdens.mp hc)), if_neg (fun hc => hd hc.2)]
        exact parseLoopE_eq fz _
    · rw [if_neg hlen, if_neg (fun hc => hlen hc.1)]
      exact parseLoopE_eq fz _
  · rw [if_neg hm, if_neg hm]
    exact parseLoopE_eq fz _

/-! ## C1 (amended) — the safe-token alias family

The universally quantified development below: for every line
`"<Alias> <value> (<min>-<max>)"` whose alias is one of the safe tokens
that are themselves configured aliases, the pipeline emits exactly the
expected measurement (under the value-filter, max-bound and zip-guard
side conditions).  The fuzzy matcher is never consulted on these lines,
so the result holds for every `fz`. -/

/-- The safe tokens that are themselves configured aliases. -/
def SAFE_ALIASES : List Str :=
  [sl ("TSH"), sl ("Hb"), sl ("PCV"), sl ("TLC"), sl ("MCV"),
   sl ("MCH"), sl ("MCHC"), sl ("RDW")]

/-- The single-line document `"<Alias> <value> (<min>-<max>)"`. -/
def mkLine (A v mn mx : Str) : Str :=
  A ++ ' ' :: (v ++ ' ' :: '(' :: (mn ++ '-' :: (mx ++ [')'])))

/-- `takeWhile`/`dropWhile` across an append whose first part satisfies
the predicate and whose second part starts with a failing character. -/
lemma span_app {p : Char → Bool} {d r : Str} (hd : ∀ c ∈ d, p c = true)
    (hr : r = [] ∨ ∃ c r2, r = c :: r2 ∧ p c = false) :
    (d ++ r).takeWhile p = d ∧ (d ++ r).dropWhile p = r := by
  induction d with
  | nil =>
    rcases hr with rfl | ⟨c, r2, rfl, hc⟩
    · exact ⟨rfl, rfl⟩
    · simp [List.takeWhile_cons, List.dropWhile_cons, hc]
  | cons a d2 ih =>
    have ha : p a = true := hd a (List.mem_cons_self a d2)
    have ih2 := ih (fun c hc => hd c (List.mem_cons_of_mem a hc))
    simp [List.takeWhile_cons, List.dropWhile_cons, ha, ih2.1, ih2.2]

/-- Structural unpacking of `isNumeral`. -/
lemma numeral_decomp {nm : Str} (h : isNumeral nm = true) :
    ∃ d rest, nm = d ++ rest ∧ d ≠ [] ∧ (∀ c ∈ d, c.isDigit = true) ∧
      (rest = [] ∨ ∃ f, rest = '.' :: f ∧ f ≠ [] ∧ ∀ c ∈ f, c.isDigit = true) := by
  simp only [isNumeral, Bool.and_eq_true] at h
  obtain ⟨h1, h2⟩ := h
  have hd1 : nm.takeWhile (·.isDigit) ≠ [] := by
    intro hz
    rw [hz] at h1
    simp at h1
  refine ⟨nm.takeWhile (·.isDigit), nm.dropWhile (·.isDigit),
    (nm.takeWhile_append_dropWhile _).symm, hd1,
    fun c hc => List.mem_takeWhile_imp hc, ?_⟩
  split at h2
  · exact Or.inl (by assumption)
  · rename_i f heq
    simp only [Bool.and_eq_true, List.all_eq_true] at h2
    refine Or.inr ⟨f, heq, ?_, fun c hc => h2.2 c hc⟩
    intro hz
    rw [hz] at h2
    simp at h2
  · simp at h2

/-- A numeral is non-empty. -/
lemma numeral_ne_nil {nm : Str} (h : isNumeral nm = true) : nm ≠ [] := by
  obtain ⟨d, rest, rfl, hdne, -, -⟩ := numeral_decomp h
  intro hz
  rw [List.append_eq_nil] at hz
  exact hdne hz.1

/-- Every character of a numeral is a digit or the decimal point. -/
lemma numeral_chars {nm : Str} (h : isNumeral nm = true) :
    ∀ c ∈ nm, c.isDigit = true ∨ c = '.' := by
  obtain ⟨d, rest, rfl, -, hdd, hrest⟩ := numeral_decomp h
  intro c hc
  rcases List.mem_append.mp hc with hc | hc
  · exact Or.inl (hdd c hc)
  · rcases hrest with rfl | ⟨f, rfl, -, hff⟩
    · cases hc
    · rcases List.mem_cons.mp hc with rfl | hc
      · exact Or.inr rfl
      · exact Or.inl (hff c hc)

/-- A numeral starts with a digit. -/
lemma numeral_head_digit {nm : Str} (h : isNumeral nm = true) :
    ∃ c nm2, nm = c :: nm2 ∧ c.isDigit = true := by
  obtain ⟨d, rest, rfl, hdne, hdd, -⟩ := numeral_decomp h
  cases d with
  | nil => exact absurd rfl hdne
  | cons c d2 =>
    exact ⟨c, d2 ++ rest, by simp, hdd c (List.mem_cons_self c d2)⟩

/-- A non-empty all-digit string is a numeral. -/
lemma isNumeral_of_digits {d : Str} (hdne : d ≠ []) (hdd : ∀ c ∈ d, c.isDigit = true) :
    isNumeral d = true := by
  have hsp := span_app (p := (·.isDigit)) (r := []) hdd (Or.inl rfl)
  rw [List.append_nil] at hsp
  simp only [isNumeral, hsp.1, hsp.2, Bool.and_eq_true]
  exact ⟨by simpa using hdne, trivial⟩

/-- Integer digits, a point and fraction digits form a numeral. -/
lemma isNumeral_of_frac {d f : Str} (hdne : d ≠ []) (hdd : ∀ c ∈ d, c.isDigit = true)
    (hfne : f ≠ []) (hff : ∀ c ∈ f, c.isDigit = true) :
    isNumeral (d ++ '.' :: f) = true := by
  have hsp := span_app (p := (·.isDigit)) hdd
    (Or.inr ⟨'.', f, rfl, by decide⟩)
  simp only [isNumeral, hsp.1, hsp.2, Bool.and_eq_true, List.all_eq_true]
  exact ⟨by simpa using hdne, by simpa using hfne, by simpa using hff⟩

/-- Dropping the first character of a numeral leaves the empty string, a
numeral, or a point followed by a numeral. -/
lemma numeral_tail {c : Char} {v2 : Str} (h : isNumeral (c :: v2) = true) :
    v2 = [] ∨ isNumeral v2 = true ∨ ∃ f, v2 = '.' :: f ∧ isNumeral f = true := by
  obtain ⟨d, rest, heq, hdne, hdd, hrest⟩ := numeral_decomp h
  cases d with
  | nil => exact absurd rfl hdne
  | cons c0 d2 =>
    rw [List.cons_append] at heq
    injection heq with h1 h2
    subst h2
    cases d2 with
    | nil =>
      rcases hrest with rfl | ⟨f, rfl, hfne, hff⟩
      · exact Or.inl rfl
      · exact Or.inr (Or.inr ⟨f, rfl, isNumeral_of_digits hfne hff⟩)
    | cons c1 d3 =>
      refine Or.inr (Or.inl ?_)
      have hdd2 : ∀ x ∈ c1 :: d3, x.isDigit = true :=
        fun x hx => hdd x (List.mem_cons_of_mem c0 hx)
      rcases hrest with rfl | ⟨f, rfl, hfne, hff⟩
      · rw [List.append_nil]
        exact isNumeral_of_digits (by simp) hdd2
      · exact isNumeral_of_frac (by simp) hdd2 hfne hff

/-- `matchNumAt` on a numeral followed by a blocking character consumes
exactly the numeral. -/
lemma matchNumAt_app {nm r : Str} (h : isNumeral nm = true)
    (hr : r = [] ∨ ∃ c r2, r = c :: r2 ∧ c.isDigit = false ∧ c ≠ '.') :
    matchNumAt (nm ++ r) = some (nm, r) := by
  obtain ⟨d, rest, rfl, hdne, hdd, hrest⟩ := numeral_decomp h
  have hrB : r = [] ∨ ∃ c r2, r = c :: r2 ∧ (·.isDigit) c = false := by
    rcases hr with rfl | ⟨c, r2, rfl, hcd, -⟩
    · exact Or.inl rfl
    · exact Or.inr ⟨c, r2, rfl, hcd⟩
  rcases hrest with rfl | ⟨f, rfl, hfne, hff⟩
  · rw [List.append_nil]
    obtain ⟨htw, hdw⟩ := span_app hdd hrB
    simp only [matchNumAt, htw, hdw, if_neg hdne]
    rcases hr with rfl | ⟨c, r2, rfl, hcd, hcne⟩
    · rfl
    · split
      · rename_i r3 heq
        injection heq with heq1 heq2
        exact absurd heq1 hcne
      · rfl
  · have hassoc : (d ++ '.' :: f) ++ r = d ++ '.' :: (f ++ r) := by simp
    rw [hassoc]
    obtain ⟨htw, hdw⟩ :=
      span_app (p := (·.isDigit)) hdd (Or.inr ⟨'.', f ++ r, rfl, by decide⟩)
    obtain ⟨htw2, hdw2⟩ := span_app (p := (·.isDigit)) hff hrB
    simp only [matchNumAt, htw, hdw, if_neg hdne, htw2, hdw2]
    rw [if_neg (by simpa using hfne)]

/-- A digit is not whitespace. -/
lemma pySpace_of_digit {c : Char} (h : c.isDigit = true) : pySpace c = false := by
  simp only [pySpace, decide_eq_false_iff_not]
  rintro (rfl | rfl | rfl | rfl | rfl | rfl) <;> exact absurd h (by decide)

/-- `matchAAt` fails immediately on a non-digit head. -/
lemma matchAAt_nonDigit {c : Char} {s : Str} (hc : c.isDigit = false) :
    matchAAt (c :: s) = none := by
  have hmn : matchNumAt (c :: s) = none := by
    simp only [matchNumAt, List.takeWhile_cons, hc]
    simp
  simp [matchAAt, hmn]

/-- `searchA` over a failing head position. -/
lemma searchA_cons_of_none {c : Char} {t : Str} (h : matchAAt (c :: t) = none) :
    searchA (c :: t) = searchA t := by
  simp [searchA, h]

/-- `searchA` skips a digit-free prefix entirely. -/
lemma searchA_append_nonDigits {w r : Str} (hw : ∀ c ∈ w, c.isDigit = false) :
    searchA (w ++ r) = searchA r := by
  induction w with
  | nil => rfl
  | cons c w2 ih =>
    rw [List.cons_append,
      searchA_cons_of_none (matchAAt_nonDigit (hw c (List.mem_cons_self c w2))),
      ih (fun x hx => hw x (List.mem_cons_of_mem c hx))]

/-- At a numeral directly followed by `" ("`, pattern A fails: after the
number and the spaces, no unit characters are available and `'('` is not
a separator. -/
lemma matchAAt_num_paren {nm r : Str} (hnm : isNumeral nm = true) :
    matchAAt (nm ++ ' ' :: '(' :: r) = none := by
  have hmn : matchNumAt (nm ++ ' ' :: '(' :: r) = some (nm, ' ' :: '(' :: r) :=
    matchNumAt_app hnm (Or.inr ⟨' ', '(' :: r, rfl, by decide, by decide⟩)
  simp only [matchAAt, hmn]
  have h1 : (' ' :: '(' :: r).dropWhile pySpace = '(' :: r := by
    rw [List.dropWhile_cons, if_pos (by decide), List.dropWhile_cons, if_neg (by decide)]
  have h2 : ('(' :: r).takeWhile unitClass = [] := by
    rw [List.takeWhile_cons, if_neg (by decide)]
  have h3 : afterUnit ('(' :: r) = none := by
    have : ('(' :: r).dropWhile pySpace = '(' :: r := by
      rw [List.dropWhile_cons, if_neg (by decide)]
    simp [afterUnit, this, show sepClass '(' = false from by decide]
  rw [h1, h2]
  simp [tryUnits, h3]

/-- `searchA` skips every position inside a numeral followed by `" ("`. -/
lemma searchA_skip_numeral : ∀ (n : Nat) (v : Str), v.length ≤ n →
    isNumeral v = true → ∀ r : Str,
    searchA (v ++ ' ' :: '(' :: r) = searchA (' ' :: '(' :: r) := by
  intro n
  induction n with
  | zero =>
    intro v hlen hv r
    obtain ⟨c, v2, rfl, -⟩ := numeral_head_digit hv
    simp at hlen
  | succ n ih =>
    intro v hlen hv r
    obtain ⟨c, v2, rfl, hcd⟩ := numeral_head_digit hv
    have hA : matchAAt (c :: (v2 ++ ' ' :: '(' :: r)) = none := by
      rw [← List.cons_append]
      exact matchAAt_num_paren hv
    rw [List.cons_append, searchA_cons_of_none hA]
    rcases numeral_tail hv with rfl | hnum | ⟨f, rfl, hf⟩
    · rfl
    · exact ih v2 (by simp at hlen; omega) hnum r
    · rw [List.cons_append, searchA_cons_of_none (matchAAt_nonDigit (by decide))]
      exact ih f (by simp at hlen; omega) hf r

/-- At the start of `"<min>-<max>)"` pattern A matches, consuming
exactly `"<min>-<max>"`. -/
lemma matchAAt_range {mn mx : Str} (hmn : isNumeral mn = true)
    (hmx : isNumeral mx = true) :
    matchAAt (mn ++ '-' :: (mx ++ [')'])) =
      some (mn, mx, mn.length + 1 + mx.length) := by
  have hmn1 : matchNumAt (mn ++ '-' :: (mx ++ [')'])) = some (mn, '-' :: (mx ++ [')'])) :=
    matchNumAt_app hmn (Or.inr ⟨'-', mx ++ [')'], rfl, by decide, by decide⟩)
  have hmx1 : matchNumAt (mx ++ [')']) = some (mx, [')']) :=
    matchNumAt_app hmx (Or.inr ⟨')', [], rfl, by decide, by decide⟩)
  obtain ⟨c, mx2, heq, hcd⟩ := numeral_head_digit hmx
  have h1 : ('-' :: (mx ++ [')'])).dropWhile pySpace = '-' :: (mx ++ [')']) := by
    rw [List.dropWhile_cons, if_neg (by decide)]
  have h2 : ('-' :: (mx ++ [')'])).takeWhile unitClass = [] := by
    rw [List.takeWhile_cons, if_neg (by decide)]
  have h3 : (mx ++ [')']).dropWhile pySpace = mx ++ [')'] := by
    rw [heq, List.cons_append, List.dropWhile_cons,
      if_neg (by simp [pySpace_of_digit hcd])]
  have h4 : afterUnit ('-' :: (mx ++ [')'])) = some (mx, [')']) := by
    simp only [afterUnit, h1]
    rw [if_pos (by decide), h3, hmx1]
  rw [show matchAAt (mn ++ '-' :: (mx ++ [')'])) =
      (match matchNumAt (mn ++ '-' :: (mx ++ [')'])) with
       | none => none
       | some (g1, r1) =>
         match tryUnits (min 5 ((r1.dropWhile pySpace).takeWhile unitClass).length)
             (r1.dropWhile pySpace) with
         | none => none
         | some (g2, rest) =>
           some (g1, g2, (mn ++ '-' :: (mx ++ [')'])).length - rest.length)) from rfl]
  rw [hmn1]
  dsimp only
  rw [h1, h2]
  simp only [List.length_nil, Nat.min_zero, tryUnits, h4]
  refine congrArg some (congrArg (Prod.mk mn) (congrArg (Prod.mk mx) ?_))
  simp only [List.length_append, List.length_cons, List.length_nil]
  omega

/-- `searchA` on `"<min>-<max>)"` returns the expected groups and span. -/
lemma searchA_range {mn mx : Str} (hmn : isNumeral mn = true)
    (hmx : isNumeral mx = true) :
    searchA (mn ++ '-' :: (mx ++ [')'])) = some (mn, mx, mn ++ '-' :: mx) := by
  obtain ⟨c, mn2, heq, hcd⟩ := numeral_head_digit hmn
  have hk : matchAAt (mn ++ '-' :: (mx ++ [')'])) =
      some (mn, mx, mn.length + 1 + mx.length) := matchAAt_range hmn hmx
  rw [heq] at hk ⊢
  rw [List.cons_append]
  have hk2 : matchAAt (c :: (mn2 ++ '-' :: (mx ++ [')']))) =
      some (c :: mn2, mx, (c :: mn2).length + 1 + mx.length) := by
    rw [← List.cons_append]
    exact hk
  rw [show searchA (c :: (mn2 ++ '-' :: (mx ++ [')']))) =
      (match matchAAt (c :: (mn2 ++ '-' :: (mx ++ [')'])))  with
       | some (g1, g2, k) => some (g1, g2, (c :: (mn2 ++ '-' :: (mx ++ [')']))).take k)
       | none => searchA (mn2 ++ '-' :: (mx ++ [')']))) from rfl]
  rw [hk2]
  dsimp only
  refine congrArg some (congrArg (Prod.mk (c :: mn2)) (congrArg (Prod.mk mx) ?_))
  rw [show (c :: (mn2 ++ '-' :: (mx ++ [')']))) = (((c :: mn2) ++ '-' :: mx) ++ [')'])
    from by simp]
  rw [List.take_left']
  simp only [List.length_append, List.length_cons]
  omega

/-- The characters a well-formed line contains outside its alias:
numeral characters and the fixed punctuation of the shape. -/
def tailChar (c : Char) : Bool :=
  c.isDigit ∨ c = '.' ∨ c = ' ' ∨ c = '(' ∨ c = ')' ∨ c = '-'

/-- Unpacking `tailChar`. -/
lemma tailChar_spec {c : Char} (h : tailChar c = true) :
    c.isDigit = true ∨ c = '.' ∨ c = ' ' ∨ c = '(' ∨ c = ')' ∨ c = '-' := by
  simpa [tailChar] using h

/-- A digit character is not a letter. -/
lemma digit_not_alpha {c : Char} (h : c.isDigit = true) : c.isAlpha = false := by
  simp only [Char.isDigit, Bool.and_eq_true, decide_eq_true_eq] at h
  have h2 : c.val.toNat ≤ 57 := h.2
  simp only [Char.isAlpha, Char.isUpper, Char.isLower, Bool.or_eq_false_iff,
    Bool.and_eq_false_iff, decide_eq_false_iff_not]
  constructor
  · left
    intro hA
    have : (65 : Nat) ≤ c.val.toNat := hA
    omega
  · left
    intro hA
    have : (97 : Nat) ≤ c.val.toNat := hA
    omega

/-- `str.lower()` fixes digit characters. -/
lemma lowerC_of_digit {c : Char} (h : c.isDigit = true) : lowerC c = c := by
  simp only [Char.isDigit, Bool.and_eq_true, decide_eq_true_eq] at h
  have h2 : c.val.toNat ≤ 57 := h.2
  rw [lowerC, if_neg]
  rintro ⟨h1, -⟩
  have : (65 : Nat) ≤ c.val.toNat := h1
  omega

/-- A digit differs from every non-digit character. -/
lemma digit_ne {c d : Char} (hc : c.isDigit = true) (hd : d.isDigit = false) :
    c ≠ d := by
  intro h
  rw [h, hd] at hc
  exact Bool.false_ne_true hc

/-- The five vowels: every junk term and every narrative marker contains
one, while the safe aliases and the rest of a well-formed line never do. -/
def isVowel (c : Char) : Bool :=
  c = 'a' ∨ c = 'e' ∨ c = 'i' ∨ c = 'o' ∨ c = 'u'

/-- Digits are not vowels. -/
lemma isVowel_of_digit {c : Char} (h : c.isDigit = true) : isVowel c = false := by
  simp only [isVowel, decide_eq_false_iff_not]
  rintro (rfl | rfl | rfl | rfl | rfl) <;> exact absurd h (by decide)

/-- `str.lower()` fixes every tail character. -/
lemma lowerC_tail {c : Char} (h : tailChar c = true) : lowerC c = c := by
  rcases tailChar_spec h with hd | rfl | rfl | rfl | rfl | rfl
  · exact lowerC_of_digit hd
  all_goals decide

/-- Tail characters are not letters. -/
lemma tail_not_alpha {c : Char} (h : tailChar c = true) : c.isAlpha = false := by
  rcases tailChar_spec h with hd | rfl | rfl | rfl | rfl | rfl
  · exact digit_not_alpha hd
  all_goals decide

/-- Tail characters are not vowels. -/
lemma isVowel_tail {c : Char} (h : tailChar c = true) : isVowel c = false := by
  rcases tailChar_spec h with hd | rfl | rfl | rfl | rfl | rfl
  · exact isVowel_of_digit hd
  all_goals decide

/-- Tail characters are not the newline. -/
lemma tail_ne_nl {c : Char} (h : tailChar c = true) : c ≠ '\n' := by
  rcases tailChar_spec h with hd | rfl | rfl | rfl | rfl | rfl
  · exact digit_ne hd (by decide)
  all_goals decide

/-- Tail characters are not the comma. -/
lemma tail_ne_comma {c : Char} (h : tailChar c = true) : c ≠ ',' := by
  rcases tailChar_spec h with hd | rfl | rfl | rfl | rfl | rfl
  · exact digit_ne hd (by decide)
  all_goals decide

/-- Every character of a numeral is a tail character. -/
lemma numeral_tailChar {nm : Str} (h : isNumeral nm = true) :
    ∀ c ∈ nm, tailChar c = true := by
  intro c hc
  rcases numeral_chars h c hc with hd | rfl
  · simp [tailChar, hd]
  · decide

/-- Every character of a well-formed line is in the alias or a tail
character. -/
lemma mkLine_tail {A v mn mx : Str} (hv : isNumeral v = true)
    (hmn : isNumeral mn = true) (hmx : isNumeral mx = true) :
    ∀ c ∈ mkLine A v mn mx, c ∈ A ∨ tailChar c = true := by
  intro c hc
  rw [mkLine] at hc
  rcases List.mem_append.mp hc with hA | hc
  · exact Or.inl hA
  right
  rcases List.mem_cons.mp hc with rfl | hc
  · decide
  rcases List.mem_append.mp hc with hin | hc
  · exact numeral_tailChar hv c hin
  rcases List.mem_cons.mp hc with rfl | hc
  · decide
  rcases List.mem_cons.mp hc with rfl | hc
  · decide
  rcases List.mem_append.mp hc with hin | hc
  · exact numeral_tailChar hmn c hin
  rcases List.mem_cons.mp hc with rfl | hc
  · decide
  rcases List.mem_append.mp hc with hin | hc
  · exact numeral_tailChar hmx c hin
  rcases List.mem_cons.mp hc with rfl | hc
  · decide
  cases hc

/-- The lower-cased well-formed line contains no vowel when the alias
(lower-cased) contains none. -/
lemma mkLine_no_vowel {A v mn mx : Str}
    (hA : ∀ c ∈ A, isVowel (lowerC c) = false)
    (hv : isNumeral v = true) (hmn : isNumeral mn = true)
    (hmx : isNumeral mx = true) :
    ∀ c ∈ lowerS (mkLine A v mn mx), isVowel c = false := by
  intro c hc
  obtain ⟨x, hx, rfl⟩ := List.mem_map.mp hc
  rcases mkLine_tail hv hmn hmx x hx with hxA | hxt
  · exact hA x hxA
  · rw [lowerC_tail hxt]
    exact isVowel_tail hxt

/-- A string with a vowel never occurs inside a vowel-free string. -/
lemma no_vowel_no_sub {x t : Str} (hx : ∃ c ∈ x, isVowel c = true)
    (ht : ∀ c ∈ t, isVowel c = false) : subOccurs x t = false := by
  cases h : subOccurs x t with
  | false => rfl
  | true =>
    obtain ⟨c, hcx, hcv⟩ := hx
    have := ht c (subOccurs_mem h c hcx)
    rw [hcv] at this
    exact absurd this (by decide)

/-- A vowel-free line matches none of the junk terms. -/
lemma no_vowel_not_junk {L : Str} (hnv : ∀ c ∈ lowerS L, isVowel c = false) :
    isJunkLine L = false := by
  simp only [isJunkLine, IGNORE_TERMS, List.any_cons, List.any_nil,
    Bool.or_eq_false_iff]
  refine ⟨?_, ?_, ?_, ?_, ?_, ?_, ?_, ?_, ?_, trivial⟩
  · exact no_vowel_no_sub ⟨'e', by decide, by decide⟩ hnv
  · exact no_vowel_no_sub ⟨'e', by decide, by decide⟩ hnv
  · exact no_vowel_no_sub ⟨'u', by decide, by decide⟩ hnv
  · exact no_vowel_no_sub ⟨'e', by decide, by decide⟩ hnv
  · exact no_vowel_no_sub ⟨'a', by decide, by decide⟩ hnv
  · exact no_vowel_no_sub ⟨'a', by decide, by decide⟩ hnv
  · exact no_vowel_no_sub ⟨'i', by decide, by decide⟩ hnv
  · exact no_vowel_no_sub ⟨'e', by decide, by decide⟩ hnv
  · exact no_vowel_no_sub ⟨'e', by decide, by decide⟩ hnv

/-- A vowel-free text matches none of the narrative markers. -/
lemma no_vowel_no_marker {L : Str} (hnv : ∀ c ∈ lowerS L, isVowel c = false) :
    (BIOPSY_MARKERS.filter (fun m => subOccurs m (lowerS L))).length = 0 := by
  have h1 := @no_vowel_no_sub (sl ("biopsy")) (lowerS L) ⟨'i', by decide, by decide⟩ hnv
  have h2 := @no_vowel_no_sub (sl ("histopathology")) (lowerS L)
    ⟨'i', by decide, by decide⟩ hnv
  have h3 := @no_vowel_no_sub (sl ("specimen examined")) (lowerS L)
    ⟨'e', by decide, by decide⟩ hnv
  have h4 := @no_vowel_no_sub (sl ("microscopic examination")) (lowerS L)
    ⟨'i', by decide, by decide⟩ hnv
  have h5 := @no_vowel_no_sub (sl ("impression:")) (lowerS L)
    ⟨'i', by decide, by decide⟩ hnv
  have h6 := @no_vowel_no_sub (sl ("clinical history")) (lowerS L)
    ⟨'i', by decide, by decide⟩ hnv
  have h7 := @no_vowel_no_sub (sl ("department of pathology")) (lowerS L)
    ⟨'e', by decide, by decide⟩ hnv
  have h8 := @no_vowel_no_sub (sl ("cytology")) (lowerS L)
    ⟨'o', by decide, by decide⟩ hnv
  simp [BIOPSY_MARKERS, List.filter_cons, h1, h2, h3, h4, h5, h6, h7, h8]

/-- A case-insensitive letter token cannot start matching at a tail
character, so appending tail text does not change a `ciStarts` test. -/
lemma ciStarts_append_tail {tok : Str}
    (htok : ∀ c ∈ tok, (lowerC c).isAlpha = true) :
    ∀ (x y : Str), (y = [] ∨ ∃ c y2, y = c :: y2 ∧ tailChar c = true) →
    ciStarts tok (x ++ y) = ciStarts tok x := by
  induction tok with
  | nil => intro x y hy; rfl
  | cons c0 t0 ih =>
    intro x y hy
    cases x with
    | nil =>
      rcases hy with rfl | ⟨c, y2, rfl, hc⟩
      · rfl
      · have halpha : (lowerC c0).isAlpha = true := htok c0 (List.mem_cons_self c0 t0)
        have hne : lowerC c0 ≠ lowerC c := by
          rw [lowerC_tail hc]
          intro he
          rw [he] at halpha
          rw [tail_not_alpha hc] at halpha
          exact Bool.false_ne_true halpha
        simp [ciStarts, hne]
    | cons a x2 =>
      simp only [List.cons_append, ciStarts, List.append_eq]
      rw [ih (fun c hc => htok c (List.mem_cons_of_mem c0 hc)) x2 y hy]

/-- A pattern that case-insensitively begins a string is no longer than
the string. -/
lemma ciStarts_le_length {tok : Str} :
    ∀ {x : Str}, ciStarts tok x = true → tok.length ≤ x.length := by
  induction tok with
  | nil => intro x h; simp
  | cons c0 t0 ih =>
    intro x h
    cases x with
    | nil => exact absurd h (by simp [ciStarts])
    | cons a x2 =>
      simp only [ciStarts, Bool.and_eq_true] at h
      simpa using Nat.succ_le_succ (ih h.2)

/-- The boundary test after a match that ends inside `x` (or exactly at
its end) is insensitive to what follows the separating space. -/
lemma nbAfter_drop_eq {x r : Str} {k : Nat} (hk : k ≤ x.length) :
    nbAfter ((x ++ ' ' :: r).drop k) = nbAfter ((x ++ [' ']).drop k) := by
  rw [List.drop_append_of_le_length hk, List.drop_append_of_le_length hk]
  cases x.drop k with
  | nil => rfl
  | cons a l => rfl

/-- A letter token never matches as a whole word inside pure tail text. -/
lemma wwAux_no_letter {c0 : Char} {t0 : Str}
    (halpha : (lowerC c0).isAlpha = true) :
    ∀ (r : Str), (∀ c ∈ r, tailChar c = true) → ∀ (prev : Option Char),
    wwAux (c0 :: t0) prev r = false := by
  intro r
  induction r with
  | nil => intro hr prev; rfl
  | cons c r2 ihr =>
    intro hr prev
    have hc : tailChar c = true := hr c (List.mem_cons_self c r2)
    have hne : lowerC c0 ≠ lowerC c := by
      rw [lowerC_tail hc]
      intro he
      rw [he] at halpha
      rw [tail_not_alpha hc] at halpha
      exact Bool.false_ne_true halpha
    simp only [wwAux, ciStarts, Bool.or_eq_false_iff]
    refine ⟨by simp [hne], ihr (fun x hx => hr x (List.mem_cons_of_mem c hx)) (some c)⟩

/-- Replacing everything after the alias's separating space by other
tail text does not change any whole-word letter-token test. -/
lemma wwAux_pad {tok r : Str}
    (htok : ∀ c ∈ tok, (lowerC c).isAlpha = true) (htne : tok ≠ [])
    (hr : ∀ c ∈ r, tailChar c = true) :
    ∀ (x : Str) (prev : Option Char),
      wwAux tok prev (x ++ ' ' :: r) = wwAux tok prev (x ++ [' ']) := by
  obtain ⟨c0, t0, rfl⟩ := List.exists_cons_of_ne_nil htne
  intro x
  induction x with
  | nil =>
    intro prev
    have halpha : (lowerC c0).isAlpha = true := htok c0 (List.mem_cons_self c0 t0)
    have hne : lowerC c0 ≠ lowerC ' ' := by
      intro he
      rw [he] at halpha
      exact absurd halpha (by decide)
    simp only [List.nil_append, wwAux, ciStarts, Bool.or_eq_false_iff]
    simp only [show decide (lowerC c0 = lowerC ' ') = false from by simp [hne],
      Bool.false_and, Bool.and_false, Bool.false_or]
    rw [wwAux_no_letter halpha r hr (some ' ')]
  | cons a x2 ih =>
    intro prev
    simp only [List.cons_append, wwAux, List.append_eq]
    rw [ih (some a)]
    have hcs : ciStarts (c0 :: t0) (a :: (x2 ++ ' ' :: r)) =
        ciStarts (c0 :: t0) (a :: (x2 ++ [' '])) := by
      rw [← List.cons_append, ← List.cons_append,
        ciStarts_append_tail htok (a :: x2) (' ' :: r) (Or.inr ⟨' ', r, rfl, by decide⟩),
        ciStarts_append_tail htok (a :: x2) [' '] (Or.inr ⟨' ', [], rfl, by decide⟩)]
    cases hC : ciStarts (c0 :: t0) (a :: (x2 ++ ' ' :: r)) with
    | false =>
      rw [hC] at hcs
      rw [← hcs]
      simp
    | true =>
      rw [hC] at hcs
      rw [← hcs]
      have hle : (c0 :: t0).length ≤ (a :: x2).length := by
        rw [← List.cons_append,
          ciStarts_append_tail htok (a :: x2) (' ' :: r)
            (Or.inr ⟨' ', r, rfl, by decide⟩)] at hC
        exact ciStarts_le_length hC
      have hnb : nbAfter (List.drop (c0 :: t0).length (a :: (x2 ++ ' ' :: r))) =
          nbAfter (List.drop (c0 :: t0).length (a :: (x2 ++ [' ']))) := by
        rw [← List.cons_append, ← List.cons_append]
        exact nbAfter_drop_eq hle
      rw [hnb]

/-- `wholeWordCI` on a well-formed line depends only on the alias. -/
lemma wholeWordCI_pad {tok A r : Str}
    (htok : ∀ c ∈ tok, (lowerC c).isAlpha = true) (htne : tok ≠ [])
    (hr : ∀ c ∈ r, tailChar c = true) :
    wholeWordCI tok (A ++ ' ' :: r) = wholeWordCI tok (A ++ [' ']) :=
  wwAux_pad htok htne hr A none

/-- `find?` only depends on the predicate's values on the list. -/
lemma find_congr {α : Type} {p q : α → Bool} :
    ∀ {l : List α}, (∀ a ∈ l, p a = q a) → l.find? p = l.find? q := by
  intro l
  induction l with
  | nil => intro h; rfl
  | cons a l2 ih =>
    intro h
    rw [List.find?_cons, List.find?_cons, h a (List.mem_cons_self a l2),
      ih (fun x hx => h x (List.mem_cons_of_mem a hx))]

/-- The safe-token pass on a well-formed line depends only on the alias. -/
lemma safeFind_pad {A r : Str} (hr : ∀ c ∈ r, tailChar c = true) :
    safeFind (A ++ ' ' :: r) = safeFind (A ++ [' ']) := by
  refine find_congr ?_
  intro tok htok
  have hmem : tok = sl ("Hb") ∨ tok = sl ("PCV") ∨ tok = sl ("TLC") ∨
      tok = sl ("RBC") ∨ tok = sl ("MCV") ∨ tok = sl ("MCH") ∨
      tok = sl ("MCHC") ∨ tok = sl ("RDW") ∨ tok = sl ("TSH") := by
    simpa [SAFE_TOKENS] using htok
  rcases hmem with rfl | rfl | rfl | rfl | rfl | rfl | rfl | rfl | rfl <;>
    exact wholeWordCI_pad (by decide) (by decide) hr

/-- A no-newline text splits into the single line it is. -/
lemma splitNl_no_nl {s : Str} (h : ∀ c ∈ s, c ≠ '\n') : splitNl s = [s] := by
  induction s with
  | nil => rfl
  | cons c r ih =>
    have hc : c ≠ '\n' := h c (List.mem_cons_self c r)
    have ih2 := ih (fun x hx => h x (List.mem_cons_of_mem c hx))
    rw [splitNl.eq_def]
    split
    · simp at *
    · rename_i heq
      injection heq with h1 h2
      exact absurd h1 hc
    · rename_i c2 r2 hne heq
      injection heq with h1 h2
      subst h1
      subst h2
      rw [ih2]

/-- Numeral characters are never whitespace. -/
lemma numeral_no_sp {nm : Str} (h : isNumeral nm = true) :
    ∀ c ∈ nm, pySpace c = false := by
  intro c hc
  rcases numeral_chars h c hc with hd | rfl
  · exact pySpace_of_digit hd
  · decide

/-- Collapsing whitespace walks over a non-space character. -/
lemma collapseWS_nonsp_cons {c₁ c₂ : Char} {r : Str} (h : pySpace c₁ = false) :
    collapseWS (c₁ :: c₂ :: r) = c₁ :: collapseWS (c₂ :: r) := by
  rw [collapseWS, if_neg (by simp [h]), if_neg (by simp [h])]

/-- Collapsing whitespace keeps a single space before a non-space. -/
lemma collapseWS_sp_cons {c₂ : Char} {r : Str} (h : pySpace c₂ = false) :
    collapseWS (' ' :: c₂ :: r) = ' ' :: collapseWS (c₂ :: r) := by
  rw [collapseWS, if_neg (by simp [h]), if_pos (by decide)]

/-- Collapsing whitespace passes over a space-free prefix unchanged. -/
lemma collapseWS_nosp_append {w : Str} (hw : ∀ c ∈ w, pySpace c = false) :
    ∀ {r : Str}, r ≠ [] → collapseWS (w ++ r) = w ++ collapseWS r := by
  induction w with
  | nil => intro r hr; rfl
  | cons a w2 ih =>
    intro r hr
    have ha : pySpace a = false := hw a (List.mem_cons_self a w2)
    cases hwr : w2 ++ r with
    | nil => exact absurd (List.append_eq_nil.mp hwr).2 hr
    | cons c₂ r2 =>
      rw [List.cons_append, hwr, collapseWS_nonsp_cons ha, ← hwr,
        ih (fun c hc => hw c (List.mem_cons_of_mem a hc)) hr, List.cons_append]

/-- Stripping from the left stops at a leading non-space. -/
lemma trimLeft_of_head {c : Char} {r : Str} (h : pySpace c = false) :
    trimLeft (c :: r) = c :: r := by
  simp [trimLeft, List.dropWhile_cons, h]

/-- Stripping from the right keeps a string ending in a non-space. -/
lemma trimRight_append_last {z : Str} {c : Char} (h : pySpace c = false) :
    trimRight (z ++ [c]) = z ++ [c] := by
  rw [trimRight, List.reverse_append]
  simp only [List.reverse_cons, List.reverse_nil, List.nil_append,
    List.singleton_append, List.dropWhile_cons, h]
  simp

/-- Stripping from the right eats a final space. -/
lemma trimRight_drop_sp {z : Str} : trimRight (z ++ [' ']) = trimRight z := by
  rw [trimRight, trimRight, List.reverse_append]
  simp only [List.reverse_cons, List.reverse_nil, List.nil_append,
    List.singleton_append, List.dropWhile_cons]
  rw [if_pos (by decide)]

/-- The whitespace normalisation of the parser context of a well-formed
single line (the line, the joining space, and the empty lookahead) is
the line itself. -/
lemma normalizeWS_ctx {A v mn mx : Str} (hAne : A ≠ [])
    (hAsp : ∀ c ∈ A, pySpace c = false)
    (hv : isNumeral v = true) (hmn : isNumeral mn = true)
    (hmx : isNumeral mx = true) :
    normalizeWS (mkLine A v mn mx ++ [' ']) = mkLine A v mn mx := by
  obtain ⟨a, A2, rfl⟩ := List.exists_cons_of_ne_nil hAne
  obtain ⟨cv, v2, hveq, hcvd⟩ := numeral_head_digit hv
  have h1 : mkLine (a :: A2) v mn mx ++ [' '] =
      (a :: A2) ++ ' ' :: (v ++ ' ' :: '(' :: (mn ++ '-' :: (mx ++ [')', ' ']))) := by
    simp [mkLine]
  have h2 : collapseWS ((a :: A2) ++
        ' ' :: (v ++ ' ' :: '(' :: (mn ++ '-' :: (mx ++ [')', ' '])))) =
      (a :: A2) ++ collapseWS
        (' ' :: (v ++ ' ' :: '(' :: (mn ++ '-' :: (mx ++ [')', ' '])))) :=
    collapseWS_nosp_append hAsp (by simp)
  have h3 : collapseWS
        (' ' :: (v ++ ' ' :: '(' :: (mn ++ '-' :: (mx ++ [')', ' '])))) =
      ' ' :: collapseWS (v ++ ' ' :: '(' :: (mn ++ '-' :: (mx ++ [')', ' ']))) := by
    rw [hveq, List.cons_append, collapseWS_sp_cons (pySpace_of_digit hcvd),
      ← List.cons_append]
  have h4 : collapseWS (v ++ ' ' :: '(' :: (mn ++ '-' :: (mx ++ [')', ' ']))) =
      v ++ collapseWS (' ' :: '(' :: (mn ++ '-' :: (mx ++ [')', ' ']))) :=
    collapseWS_nosp_append (numeral_no_sp hv) (by simp)
  have h5 : collapseWS (' ' :: '(' :: (mn ++ '-' :: (mx ++ [')', ' ']))) =
      ' ' :: collapseWS ('(' :: (mn ++ '-' :: (mx ++ [')', ' ']))) :=
    collapseWS_sp_cons (by decide)
  have hw6 : ∀ c ∈ '(' :: mn, pySpace c = false := by
    intro c hc
    rcases List.mem_cons.mp hc with rfl | hc
    · decide
    · exact numeral_no_sp hmn c hc
  have h6 : collapseWS ('(' :: (mn ++ '-' :: (mx ++ [')', ' ']))) =
      ('(' :: mn) ++ collapseWS ('-' :: (mx ++ [')', ' '])) := by
    rw [show '(' :: (mn ++ '-' :: (mx ++ [')', ' '])) =
        ('(' :: mn) ++ ('-' :: (mx ++ [')', ' '])) from by simp]
    exact collapseWS_nosp_append hw6 (by simp)
  have hw7 : ∀ c ∈ '-' :: mx, pySpace c = false := by
    intro c hc
    rcases List.mem_cons.mp hc with rfl | hc
    · decide
    · exact numeral_no_sp hmx c hc
  have h7 : collapseWS ('-' :: (mx ++ [')', ' '])) =
      ('-' :: mx) ++ collapseWS [')', ' '] := by
    rw [show '-' :: (mx ++ [')', ' ']) = ('-' :: mx) ++ [')', ' '] from by simp]
    exact collapseWS_nosp_append hw7 (by simp)
  have h8 : collapseWS [')', ' '] = [')', ' '] := by decide
  have hcol : collapseWS (mkLine (a :: A2) v mn mx ++ [' ']) =
      mkLine (a :: A2) v mn mx ++ [' '] := by
    rw [h1, h2, h3, h4, h5, h6, h7, h8]
    simp [mkLine]
  have htl : trimLeft (mkLine (a :: A2) v mn mx ++ [' ']) =
      mkLine (a :: A2) v mn mx ++ [' '] := by
    rw [show mkLine (a :: A2) v mn mx ++ [' '] =
        a :: (A2 ++ ' ' :: (v ++ ' ' :: '(' :: (mn ++ '-' :: (mx ++ [')', ' '])))) from
        by simp [mkLine]]
    exact trimLeft_of_head (hAsp a (List.mem_cons_self a A2))
  have htr : trimRight (mkLine (a :: A2) v mn mx ++ [' ']) =
      mkLine (a :: A2) v mn mx := by
    rw [trimRight_drop_sp,
      show mkLine (a :: A2) v mn mx =
        (a :: (A2 ++ ' ' :: (v ++ ' ' :: '(' :: (mn ++ '-' :: mx)))) ++ [')'] from
        by simp [mkLine]]
    exact trimRight_append_last (by decide)
  simp only [normalizeWS, trim]
  rw [hcol, htl, htr]

/-- Heads differ, so the pattern does not begin the string. -/
lemma startsWith_ne_head {c0 : Char} {p : Str} {c : Char} {s : Str} (h : c0 ≠ c) :
    startsWith (c0 :: p) (c :: s) = false := by
  simp [startsWith, h]

/-- The skip counter of `remAux` drops exactly that many characters. -/
lemma remAux_count (pat : Str) : ∀ (k : Nat) (s : Str),
    remAux pat k s = remAux pat 0 (s.drop k) := by
  intro k
  induction k with
  | zero => intro s; rfl
  | succ n ih =>
    intro s
    cases s with
    | nil => rw [remAux]; rfl
    | cons c rest =>
      rw [remAux, ih rest]
      rfl

/-- `replace` copies a prefix in which no occurrence can start. -/
lemma remAux_skip {pat : Str} : ∀ (w r : Str),
    (∀ w2, w2 ≠ [] → w2 <:+ w → startsWith pat (w2 ++ r) = false) →
    remAux pat 0 (w ++ r) = w ++ remAux pat 0 r := by
  intro w
  induction w with
  | nil => intro r h; rfl
  | cons a w2 ih =>
    intro r h
    rw [List.cons_append, remAux,
      if_neg (by
        have := h (a :: w2) (by simp) (List.suffix_refl _)
        rw [List.cons_append] at this
        simp [this]),
      ih r (fun w3 hne hsuf => h w3 hne (hsuf.trans (List.suffix_cons a w2))),
      List.cons_append]

/-- Removing the matched span `"<min>-<max>"` from the context of a
well-formed line deletes exactly the one bracketed occurrence: the span
contains the context's only dash, so no other occurrence can exist. -/
lemma removeAll_ctx {A v mn mx : Str}
    (hAdash : ∀ c ∈ A, c ≠ '-')
    (hv : isNumeral v = true) (hmn : isNumeral mn = true)
    (hmx : isNumeral mx = true) :
    pyRemove (mkLine A v mn mx ++ [' ']) (mn ++ '-' :: mx) =
      A ++ ' ' :: (v ++ [' ', '(', ')', ' ']) := by
  obtain ⟨cm, mn2, hmneq, hcm⟩ := numeral_head_digit hmn
  have hPd : ∀ c ∈ A ++ ' ' :: (v ++ [' ', '(']), c ≠ '-' := by
    intro c hc
    rcases List.mem_append.mp hc with hca | hc
    · exact hAdash c hca
    rcases List.mem_cons.mp hc with rfl | hc
    · decide
    rcases List.mem_append.mp hc with hcv | hc
    · rcases numeral_chars hv c hcv with hd | rfl
      · exact digit_ne hd (by decide)
      · decide
    rcases List.mem_cons.mp hc with rfl | hc
    · decide
    rcases List.mem_cons.mp hc with rfl | hc
    · decide
    cases hc
  have hmnd : ∀ c ∈ mn, (!decide (c = '-')) = true := by
    intro c hc
    rcases numeral_chars hmn c hc with hd | rfl
    · simpa using digit_ne hd (by decide)
    · decide
  have hnostart : ∀ w2, w2 ≠ [] → w2 <:+ (A ++ ' ' :: (v ++ [' ', '('])) →
      startsWith (mn ++ '-' :: mx)
        (w2 ++ ((mn ++ '-' :: mx) ++ [')', ' '])) = false := by
    intro w2 hne hsuf
    cases hsw : startsWith (mn ++ '-' :: mx)
        (w2 ++ ((mn ++ '-' :: mx) ++ [')', ' '])) with
    | false => rfl
    | true =>
      exfalso
      obtain ⟨y, hy⟩ := (startsWith_iff _ _).mp hsw
      have hw2d : ∀ c ∈ w2 ++ mn, (!decide (c = '-')) = true := by
        intro c hc
        rcases List.mem_append.mp hc with hcw | hcmn
        · simpa using hPd c (hsuf.subset hcw)
        · exact hmnd c hcmn
      have hL : List.takeWhile (fun c => !decide (c = '-'))
          (w2 ++ ((mn ++ '-' :: mx) ++ [')', ' '])) = w2 ++ mn := by
        rw [show w2 ++ ((mn ++ '-' :: mx) ++ [')', ' ']) =
            (w2 ++ mn) ++ ('-' :: (mx ++ [')', ' '])) from by simp]
        exact (span_app hw2d (Or.inr ⟨'-', mx ++ [')', ' '], rfl, by decide⟩)).1
      have hR : List.takeWhile (fun c => !decide (c = '-'))
          ((mn ++ '-' :: mx) ++ y) = mn := by
        rw [show (mn ++ '-' :: mx) ++ y = mn ++ ('-' :: (mx ++ y)) from by simp]
        exact (span_app hmnd (Or.inr ⟨'-', mx ++ y, rfl, by decide⟩)).1
      have heq2 : w2 ++ mn = mn :=
        hL.symm.trans
          ((congrArg (List.takeWhile (fun c => !decide (c = '-'))) hy).trans hR)
      have hlen := congrArg List.length heq2
      simp only [List.length_append] at hlen
      exact hne (List.length_eq_zero.mp (by omega))
  have hctx : mkLine A v mn mx ++ [' '] =
      (A ++ ' ' :: (v ++ [' ', '('])) ++ ((mn ++ '-' :: mx) ++ [')', ' ']) := by
    simp [mkLine]
  rw [pyRemove, if_neg (by simp), hctx, removeAll, remAux_skip _ _ hnostart]
  have hsw2 : startsWith (mn ++ '-' :: mx) ((mn ++ '-' :: mx) ++ [')', ' ']) = true :=
    (startsWith_iff _ _).mpr ⟨[')', ' '], rfl⟩
  have hstep : remAux (mn ++ '-' :: mx) 0 ((mn ++ '-' :: mx) ++ [')', ' ']) =
      [')', ' '] := by
    rw [show (mn ++ '-' :: mx) ++ [')', ' '] =
        cm :: ((mn2 ++ '-' :: mx) ++ [')', ' ']) from by simp [hmneq]]
    rw [remAux]
    rw [if_pos (by
      rw [show cm :: ((mn2 ++ '-' :: mx) ++ [')', ' ']) =
          (mn ++ '-' :: mx) ++ [')', ' '] from by simp [hmneq]]
      exact hsw2)]
    rw [remAux_count]
    have hlen2 : (mn ++ '-' :: mx).length - 1 = (mn2 ++ '-' :: mx).length := by
      simp [hmneq]
    rw [hlen2, List.drop_left]
    rw [remAux, if_neg (by
      rw [hmneq, List.cons_append]
      simp [startsWith_ne_head (digit_ne hcm (show (')').isDigit = false from by decide))])]
    rw [remAux, if_neg (by
      rw [hmneq, List.cons_append]
      simp [startsWith_ne_head (digit_ne hcm (show (' ').isDigit = false from by decide))])]
    rfl
  rw [hstep]
  simp

/-- Scanning the integer part accumulates its digits in reverse. -/
lemma findAux_int (r : Str) : ∀ (d : Str), (∀ c ∈ d, c.isDigit = true) →
    ∀ acc, findAux (.intPart acc) (d ++ r) = findAux (.intPart (d.reverse ++ acc)) r := by
  intro d
  induction d with
  | nil => intro h acc; simp
  | cons c d2 ih =>
    intro h acc
    rw [List.cons_append, findAux, if_pos (h c (List.mem_cons_self c d2)),
      ih (fun x hx => h x (List.mem_cons_of_mem c hx)) (c :: acc)]
    simp

/-- Scanning the fraction part accumulates its digits in reverse. -/
lemma findAux_frac (r : Str) : ∀ (f : Str), (∀ c ∈ f, c.isDigit = true) →
    ∀ acc, findAux (.fracPart acc) (f ++ r) = findAux (.fracPart (f.reverse ++ acc)) r := by
  intro f
  induction f with
  | nil => intro h acc; simp
  | cons c f2 ih =>
    intro h acc
    rw [List.cons_append, findAux, if_pos (h c (List.mem_cons_self c f2)),
      ih (fun x hx => h x (List.mem_cons_of_mem c hx)) (c :: acc)]
    simp

/-- While outside a token, a non-digit character is skipped. -/
lemma findAux_out_skip {c : Char} (h : c.isDigit = false) (r : Str) :
    findAux .out (c :: r) = findAux .out r := by
  rw [findAux, if_neg (by simp [h])]

/-- While outside a token, a digit-free prefix is skipped entirely. -/
lemma findAux_out_append {w : Str} (hw : ∀ c ∈ w, c.isDigit = false) (r : Str) :
    findAux .out (w ++ r) = findAux .out r := by
  induction w with
  | nil => rfl
  | cons c w2 ih =>
    rw [List.cons_append, findAux_out_skip (hw c (List.mem_cons_self c w2)),
      ih (fun x hx => hw x (List.mem_cons_of_mem c hx))]

/-- A numeral token followed by a blocking character is matched whole:
`re.findall` yields it and resumes after it. -/
lemma findallNum_token {v : Str} (hv : isNumeral v = true) {c : Char}
    (hcd : c.isDigit = false) (hcp : c ≠ '.') (r : Str) :
    findAux .out (v ++ c :: r) = v :: findAux .out r := by
  obtain ⟨d, rest, rfl, hdne, hdd, hrest⟩ := numeral_decomp hv
  obtain ⟨cd, d2, rfl⟩ := List.exists_cons_of_ne_nil hdne
  have hcd0 : cd.isDigit = true := hdd cd (List.mem_cons_self cd d2)
  have hdd2 : ∀ x ∈ d2, x.isDigit = true :=
    fun x hx => hdd x (List.mem_cons_of_mem cd hx)
  rcases hrest with rfl | ⟨f, rfl, hfne, hff⟩
  · rw [List.append_nil, List.cons_append, findAux, if_pos hcd0,
      findAux_int (c :: r) d2 hdd2 [cd], findAux, if_neg (by simp [hcd]),
      if_neg hcp]
    simp
  · obtain ⟨cf, f2, rfl⟩ := List.exists_cons_of_ne_nil hfne
    have hcf0 : cf.isDigit = true := hff cf (List.mem_cons_self cf f2)
    have hff2 : ∀ x ∈ f2, x.isDigit = true :=
      fun x hx => hff x (List.mem_cons_of_mem cf hx)
    rw [show ((cd :: d2) ++ '.' :: cf :: f2) ++ c :: r =
        cd :: (d2 ++ ('.' :: (cf :: (f2 ++ c :: r)))) from by simp]
    rw [findAux, if_pos hcd0,
      findAux_int ('.' :: (cf :: (f2 ++ c :: r))) d2 hdd2 [cd],
      findAux, if_neg (by decide), if_pos (by decide),
      findAux, if_pos hcf0,
      findAux_frac (c :: r) f2 hff2 (cf :: '.' :: (d2.reverse ++ [cd])),
      findAux, if_neg (by simp [hcd])]
    simp

/-- The Value Extractor on the well-formed context, with the dash-range
span removed, returns exactly the line's value. -/
lemma extract_value_ctx {A v mn mx : Str}
    (hAd : ∀ c ∈ A, c.isDigit = false)
    (hAcm : ∀ c ∈ A, c ≠ ',')
    (hAdash : ∀ c ∈ A, c ≠ '-')
    (hv : isNumeral v = true) (hmn : isNumeral mn = true)
    (hmx : isNumeral mx = true)
    (hkeep : keepTok (ratOfNum v) = true) :
    extract_value (mkLine A v mn mx ++ [' ']) (some (mn ++ '-' :: mx)) =
      some (ratOfNum v) := by
  have h1 : pyRemove (mkLine A v mn mx ++ [' ']) (mn ++ '-' :: mx) =
      A ++ ' ' :: (v ++ [' ', '(', ')', ' ']) := removeAll_ctx hAdash hv hmn hmx
  have h2 : (A ++ ' ' :: (v ++ [' ', '(', ')', ' '])).filter (· ≠ ',') =
      A ++ ' ' :: (v ++ [' ', '(', ')', ' ']) := by
    rw [List.filter_eq_self]
    intro c hc
    rcases List.mem_append.mp hc with hca | hc
    · simp [hAcm c hca]
    rcases List.mem_cons.mp hc with rfl | hc
    · decide
    rcases List.mem_append.mp hc with hcv | hc
    · simp [tail_ne_comma (numeral_tailChar hv c hcv)]
    rcases List.mem_cons.mp hc with rfl | hc
    · decide
    rcases List.mem_cons.mp hc with rfl | hc
    · decide
    rcases List.mem_cons.mp hc with rfl | hc
    · decide
    rcases List.mem_cons.mp hc with rfl | hc
    · decide
    cases hc
  have hwd : ∀ c ∈ A ++ [' '], c.isDigit = false := by
    intro c hc
    rcases List.mem_append.mp hc with hca | hc
    · exact hAd c hca
    rcases List.mem_cons.mp hc with rfl | hc
    · decide
    cases hc
  have h3 : findallNum (A ++ ' ' :: (v ++ [' ', '(', ')', ' '])) = [v] := by
    rw [findallNum, show A ++ ' ' :: (v ++ [' ', '(', ')', ' ']) =
        (A ++ [' ']) ++ (v ++ ' ' :: ['(', ')', ' ']) from by simp,
      findAux_out_append hwd, findallNum_token hv (by decide) (by decide)]
    rfl
  have h4 : collectValid [v] = [ratOfNum v] := by
    rw [collectValid, show floatOf? v = some (ratOfNum v) from by
      rw [floatOf?, if_pos hv]]
    dsimp only
    rw [if_pos hkeep]
    rfl
  rw [extract_value, if_neg (by simp [mkLine])]
  show (collectValid (findallNum
    ((pyRemove (mkLine A v mn mx ++ [' ']) (mn ++ '-' :: mx)).filter (· ≠ ',')))).head? =
    some (ratOfNum v)
  rw [h1, h2, h3, h4]
  rfl

/-- The Range Extractor on the well-formed context returns the line's
bounds and the dash span. -/
lemma extract_range_ctx {A v mn mx : Str} (hAne : A ≠ [])
    (hAd : ∀ c ∈ A, c.isDigit = false)
    (hAsp : ∀ c ∈ A, pySpace c = false)
    (hv : isNumeral v = true) (hmn : isNumeral mn = true)
    (hmx : isNumeral mx = true)
    (hzip : zipSearch (mkLine A v mn mx) = false)
    (hmax : ¬ (50000 : Rat) < ratOfNum mx) :
    extract_range (mkLine A v mn mx ++ [' ']) =
      some (ratOfNum mn, ratOfNum mx, mn ++ '-' :: mx) := by
  have hsA : searchA (mkLine A v mn mx) = some (mn, mx, mn ++ '-' :: mx) := by
    rw [mkLine, searchA_append_nonDigits hAd,
      searchA_cons_of_none (matchAAt_nonDigit (by decide)),
      searchA_skip_numeral v.length v le_rfl hv (mn ++ '-' :: (mx ++ [')'])),
      searchA_cons_of_none (matchAAt_nonDigit (by decide)),
      searchA_cons_of_none (matchAAt_nonDigit (by decide))]
    exact searchA_range hmn hmx
  rw [extract_range, if_neg (by simp [mkLine]),
    normalizeWS_ctx hAne hAsp hv hmn hmx]
  dsimp only
  rw [hzip]
  simp only [Bool.false_eq_true, if_false]
  rw [hsA]
  dsimp only
  rw [if_neg hmax]

/-- Stripping leaves a well-formed line unchanged. -/
lemma trim_mkLine {A : Str} (v mn mx : Str) (hAne : A ≠ [])
    (hAsp : ∀ c ∈ A, pySpace c = false) :
    trim (mkLine A v mn mx) = mkLine A v mn mx := by
  obtain ⟨a, A2, rfl⟩ := List.exists_cons_of_ne_nil hAne
  rw [trim,
    show mkLine (a :: A2) v mn mx =
      a :: (A2 ++ ' ' :: (v ++ ' ' :: '(' :: (mn ++ '-' :: (mx ++ [')'])))) from
      by simp [mkLine],
    trimLeft_of_head (hAsp a (List.mem_cons_self a A2)),
    show a :: (A2 ++ ' ' :: (v ++ ' ' :: '(' :: (mn ++ '-' :: (mx ++ [')'])))) =
      (a :: (A2 ++ ' ' :: (v ++ ' ' :: '(' :: (mn ++ '-' :: mx)))) ++ [')'] from
      by simp]
  exact trimRight_append_last (by decide)

/-- The full pipeline on a well-formed line whose alias passes the safe
pass and resolves, under the zip-guard, max-bound and value-filter side
conditions. -/
lemma C1_core (fz : Str → Option Str) {A std v mn mx : Str}
    (hAne : A ≠ [])
    (hAd : ∀ c ∈ A, c.isDigit = false)
    (hAsp : ∀ c ∈ A, pySpace c = false)
    (hAnl : ∀ c ∈ A, c ≠ '\n')
    (hAcm : ∀ c ∈ A, c ≠ ',')
    (hAdash : ∀ c ∈ A, c ≠ '-')
    (hAvf : ∀ c ∈ A, isVowel (lowerC c) = false)
    (hv : isNumeral v = true) (hmn : isNumeral mn = true)
    (hmx : isNumeral mx = true)
    (hsf : safeFind (A ++ [' ']) = some A)
    (hlk : lookupCanonical A = some std)
    (hzip : zipSearch (mkLine A v mn mx) = false)
    (hmax : ¬ (50000 : Rat) < ratOfNum mx)
    (hkeep : keepTok (ratOfNum v) = true) :
    analyze_file fz (mkLine A v mn mx) =
      [⟨std, ratOfNum v, ratOfNum mn, ratOfNum mx, mn ++ '-' :: mx⟩] := by
  have hnv := mkLine_no_vowel hAvf hv hmn hmx
  have hnomark := no_vowel_no_marker hnv
  have hnl : ∀ c ∈ mkLine A v mn mx, c ≠ '\n' := by
    intro c hc
    rcases mkLine_tail hv hmn hmx c hc with hca | hct
    · exact hAnl c hca
    · exact tail_ne_nl hct
  have hsplit : splitNl (mkLine A v mn mx) = [mkLine A v mn mx] := splitNl_no_nl hnl
  have htrim := trim_mkLine v mn mx hAne hAsp
  have hlen : 3 < (mkLine A v mn mx).length := by
    have h1 : 1 ≤ A.length := List.length_pos.mpr hAne
    have h2 : 1 ≤ v.length := List.length_pos.mpr (numeral_ne_nil hv)
    have h3 : 1 ≤ mn.length := List.length_pos.mpr (numeral_ne_nil hmn)
    have h4 : 1 ≤ mx.length := List.length_pos.mpr (numeral_ne_nil hmx)
    simp only [mkLine, List.length_append, List.length_cons]
    omega
  have hr_tail : ∀ c ∈ v ++ ' ' :: '(' :: (mn ++ '-' :: (mx ++ [')'])),
      tailChar c = true := by
    intro c hc
    rcases List.mem_append.mp hc with hcv | hc
    · exact numeral_tailChar hv c hcv
    rcases List.mem_cons.mp hc with rfl | hc
    · decide
    rcases List.mem_cons.mp hc with rfl | hc
    · decide
    rcases List.mem_append.mp hc with hcn | hc
    · exact numeral_tailChar hmn c hcn
    rcases List.mem_cons.mp hc with rfl | hc
    · decide
    rcases List.mem_append.mp hc with hcx | hc
    · exact numeral_tailChar hmx c hcx
    rcases List.mem_cons.mp hc with rfl | hc
    · decide
    cases hc
  have hsafe : safeFind (mkLine A v mn mx) = some A := by
    rw [mkLine, safeFind_pad hr_tail, hsf]
  have hjunk : isJunkLine (mkLine A v mn mx) = false := no_vowel_not_junk hnv
  have hkw : keywordOf fz (mkLine A v mn mx) = some A := by
    rw [keywordOf, hsafe]
  have hrange := extract_range_ctx hAne hAd hAsp hv hmn hmx hzip hmax
  have hval := extract_value_ctx hAd hAcm hAdash hv hmn hmx hkeep
  have hparse : parse_text_block fz (mkLine A v mn mx) =
      [⟨std, ratOfNum v, ratOfNum mn, ratOfNum mx, mn ++ '-' :: mx⟩] := by
    rw [parse_text_block, hsplit, List.map_cons, List.map_nil, htrim,
      List.filter_cons_of_pos (by simpa using hlen), List.filter_nil]
    simp only [parseLoop, hjunk, hkw, hlk, hrange, hval, Bool.false_eq_true,
      if_false]
  rw [analyze_file]
  rw [hnomark, if_neg (by omega)]
  exact hparse

/-- C1 (corrected): for every alias that is itself one of the safe
tokens (TSH, Hb, PCV, TLC, MCV, MCH, MCHC, RDW) and every well-formed
single-line document `"<Alias> <value> (<min>-<max>)"` built from
numeral tokens, provided the line triggers no Delhi-zip guard, the max
bound is at most 50000 and the value survives the token filter, the
pipeline (narrative filter plus block parser) yields exactly one
measurement carrying the alias's owning canonical name and the parsed
numeric fields — for every fuzzy matcher, which is never consulted on
such lines.  (The original universal claim over all configured aliases
is refuted by `C1_counterexample`: the alias `"RBC Count"` yields no
measurement at all.) -/
theorem C1_safe_alias_single_line (fz : Str → Option Str) {A v mn mx : Str}
    (hA : A ∈ SAFE_ALIASES)
    (hv : isNumeral v = true) (hmn : isNumeral mn = true)
    (hmx : isNumeral mx = true)
    (hzip : zipSearch (mkLine A v mn mx) = false)
    (hmax : ratOfNum mx ≤ 50000)
    (hkeep : keepTok (ratOfNum v) = true) :
    ∃ std, lookupCanonical A = some std ∧
      analyze_file fz (mkLine A v mn mx) =
        [⟨std, ratOfNum v, ratOfNum mn, ratOfNum mx, mn ++ '-' :: mx⟩] := by
  have hmax2 : ¬ (50000 : Rat) < ratOfNum mx := not_lt.mpr hmax
  have hA2 : A = sl ("TSH") ∨ A = sl ("Hb") ∨ A = sl ("PCV") ∨ A = sl ("TLC") ∨
      A = sl ("MCV") ∨ A = sl ("MCH") ∨ A = sl ("MCHC") ∨ A = sl ("RDW") := by
    simpa [SAFE_ALIASES] using hA
  rcases hA2 with rfl | rfl | rfl | rfl | rfl | rfl | rfl | rfl <;>
    exact ⟨_, rfl, C1_core fz (by decide) (by decide) (by decide) (by decide)
      (by decide) (by decide) (by decide) hv hmn hmx (by decide) rfl
      hzip hmax2 hkeep⟩

/-- Witness: the spec's own example line `"TSH 5.5 (0.5-5.0)"`. -/
theorem C1_witness :
    ∃ std, lookupCanonical (sl ("TSH")) = some std ∧
      analyze_file noFuzzy
          (mkLine (sl ("TSH")) (sl ("5.5")) (sl ("0.5")) (sl ("5.0"))) =
        [⟨std, ratOfNum (sl ("5.5")), ratOfNum (sl ("0.5")),
          ratOfNum (sl ("5.0")), sl ("0.5") ++ '-' :: sl ("5.0")⟩] :=
  C1_safe_alias_single_line noFuzzy (by decide) (by decide) (by decide)
    (by decide) (by decide) (by decide) (by decide)
